import Mathlib

/-!
# Accent colour extraction (`UAsyncTaskGetAccentColor`)

A shallow embedding of the `OnPixelsReady` lambda of
`AsyncTaskGetAccentColor.cpp` and theorems about it.

Modelling conventions.

* An `FColor` has four `uint8` channels, here `Fin 256`.
* An `int32` that the code keeps non-negative (array sizes, bin indices, counts,
  chunk sizes, task indices) is a `Nat`; the loop variable `p` and
  `DownsampleFactor`, which the code does not keep non-negative, are `Int`.
  The one `int32` operation whose exact result can leave the `int32` range is
  `p += DownsampleFactor`; it is modelled by `advance`, which wraps by `2^32`.
* The `float` product `GetNumThreads() * 0.75f` is rounded to the 24 significant
  bits of a `float` (`roundTo24`).
* A `TArray` is a `List`; an access outside `[0, Num())` is the fault
  `indexOutOfRange`.
* Loops without a syntactic trip count take a `fuel` argument; running out of it
  is the fault `outOfFuel`.
* `ParallelFor` runs its body for `Index = 0, …, Tasks - 1`; the only shared
  state is the global histogram, updated by atomic additions, so the bodies are
  run one after the other.
* `TArray::Sort`, `FMath` and the thread pool are engine code: the sort is a
  parameter of the selector, the number of pool threads a parameter of
  `OnPixelsReady`.
-/

namespace AccentColor

/-- An `FColor`: four unsigned 8-bit channels. -/
structure FColor where
  R : Fin 256
  G : Fin 256
  B : Fin 256
  A : Fin 256
deriving DecidableEq, Repr

/-- Ways in which a run of the code fails to produce a value. -/
inductive Fault where
  | indexOutOfRange
  | outOfFuel
deriving DecidableEq, Repr

deriving instance DecidableEq for Except

/-- Number of histogram bins: `int32 NumBins = 512`. -/
def NumBins : Nat := 512

/-- Narrowing of an `int32` value to a `uint8` channel. -/
def toUInt8 (x : Nat) : Fin 256 := ⟨x % 256, Nat.mod_lt x (by decide)⟩

/-- The lambda `QuantizeColor`: reduce colour space to 3 bits per channel. -/
def QuantizeColor (Color : FColor) : Nat :=
  ((Color.R.val >>> 5) <<< 6) ||| ((Color.G.val >>> 5) <<< 3) ||| (Color.B.val >>> 5)

/-- Red channel of a decoded bin: `((Bin >> 6) & 0x7) << 5`. -/
def decodeR (Bin : Nat) : Nat := ((Bin >>> 6) &&& 0x7) <<< 5

/-- Green channel of a decoded bin: `((Bin >> 3) & 0x7) << 5`. -/
def decodeG (Bin : Nat) : Nat := ((Bin >>> 3) &&& 0x7) <<< 5

/-- Blue channel of a decoded bin: `(Bin & 0x7) << 5`. -/
def decodeB (Bin : Nat) : Nat := (Bin &&& 0x7) <<< 5

/-- The lambda `GetBrightness` of the second sort. -/
def GetBrightness (Bin : Nat) : Nat :=
  let R := decodeR Bin
  let G := decodeG Bin
  let B := decodeB Bin
  R + G + B

/-- Decoding of the final chosen bin into `Accent`, alpha set to 255. -/
def decodeAccent (FinalBin : Nat) : FColor :=
  { R := toUInt8 (decodeR FinalBin)
    G := toUInt8 (decodeG FinalBin)
    B := toUInt8 (decodeB FinalBin)
    A := 255 }

/-- Checked array access `xs[i]` with an `int` index. -/
def arrayAt {α : Type} (xs : List α) (i : Int) : Except Fault α :=
  if i < 0 then .error .indexOutOfRange
  else
    match xs[i.toNat]? with
    | some x => .ok x
    | none => .error .indexOutOfRange

/-- The statement `LocalHist[BinIndex]++`. -/
def incr (LocalHist : List Nat) (BinIndex : Nat) : List Nat :=
  LocalHist.set BinIndex (LocalHist.getD BinIndex 0 + 1)

/-- Two's complement wrap of an exact integer into the `int32` range
`[-2147483648, 2147483647]`. -/
def wrapInt32 (x : Int) : Int := (x + 2147483648) % 4294967296 - 2147483648

/-- The largest value the loop variable `p` holds without overflow: `INT_MAX`. A `TArray`
has at most `INT_MAX` elements; for a list longer than that, the index type of the model
is as wide as the list is long. -/
def indexMax (Pixels : List FColor) : Int := max 2147483647 (Pixels.length : Int)

/-- The statement `p += DownsampleFactor` on the `int32` loop variable: beyond `INT_MAX`
the sum wraps by `2^32` (the behaviour of the compiled code; the C++ standard leaves it
undefined). When the stride is added `p` is a valid index, so with an `int32` stride the
sum does not fall below the `int32` range. -/
def advance (Pixels : List FColor) (p DownsampleFactor : Int) : Int :=
  if p + DownsampleFactor ≤ indexMax Pixels then p + DownsampleFactor
  else wrapInt32 (p + DownsampleFactor)

/-- The sampling loop of one task:
`for (p = start; p < hi; p += DownsampleFactor) LocalHist[QuantizeColor(Pixels[p])]++`. -/
def sampleChunk (Pixels : List FColor) (DownsampleFactor : Int) (hi : Int) :
    Nat → Int → List Nat → Except Fault (List Nat)
  | 0, p, LocalHist => if p < hi then .error .outOfFuel else .ok LocalHist
  | fuel + 1, p, LocalHist =>
    if p < hi then
      match arrayAt Pixels p with
      | .ok Color =>
        sampleChunk Pixels DownsampleFactor hi fuel (advance Pixels p DownsampleFactor)
          (incr LocalHist (QuantizeColor Color))
      | .error e => .error e
    else .ok LocalHist

/-- Synchronisation of a local histogram into the global one: for every bin with
`LocalHist[i] > 0`, `InterlockedAdd(&Histogram[i], LocalHist[i])`. -/
def syncHistogram (Histogram LocalHist : List Nat) : List Nat :=
  List.zipWith (fun g l => if l > 0 then g + l else g) Histogram LocalHist

/-- Body of the `ParallelFor` for task `Index`. -/
def taskBody (Pixels : List FColor) (DownsampleFactor : Int) (ChunkSize : Nat) (fuel : Nat)
    (Histogram : List Nat) (Index : Nat) : Except Fault (List Nat) :=
  match sampleChunk Pixels DownsampleFactor
      ((min Pixels.length (ChunkSize * (Index + 1)) : Nat) : Int) fuel
      ((ChunkSize * Index : Nat) : Int) (List.replicate NumBins 0) with
  | .ok LocalHist => .ok (syncHistogram Histogram LocalHist)
  | .error e => .error e

/-- The `ParallelFor` over `Tasks` task indices, starting from a global histogram. -/
def parallelFor (Pixels : List FColor) (DownsampleFactor : Int) (ChunkSize : Nat) (fuel : Nat) :
    Nat → List Nat → Except Fault (List Nat)
  | 0, Histogram => .ok Histogram
  | Tasks + 1, Histogram =>
    match parallelFor Pixels DownsampleFactor ChunkSize fuel Tasks Histogram with
    | .ok H => taskBody Pixels DownsampleFactor ChunkSize fuel H Tasks
    | .error e => .error e

/-- Histogram construction of `OnPixelsReady`, from `ChunkSize` to the end of the
`ParallelFor`, for a given number of tasks. -/
def buildHistogram (fuel : Nat) (Pixels : List FColor) (DownsampleFactor : Int) (Tasks : Nat) :
    Except Fault (List Nat) :=
  let ChunkSize := max 1 (Pixels.length / Tasks)
  parallelFor Pixels DownsampleFactor ChunkSize fuel Tasks (List.replicate NumBins 0)

/-- A `TArray::Sort` taking a comparison predicate on `(bin, count)` pairs. -/
abbrev PairSort := (Nat × Nat → Nat × Nat → Bool) → List (Nat × Nat) → List (Nat × Nat)

/-- What the selector relies on from `TArray::Sort`: called with the predicate
`key A > key B`, it permutes the array into descending order of `key`. Which of
two elements of equal key comes first is left open. -/
def PairSort.Sorts (sort : PairSort) : Prop :=
  ∀ (key : Nat × Nat → Nat) (xs : List (Nat × Nat)),
    List.Perm (sort (fun A B => decide (key A > key B)) xs) xs ∧
    List.Pairwise (fun A B => key A ≥ key B) (sort (fun A B => decide (key A > key B)) xs)

/-- Insertion of `x` into a list ordered by `before`: `x` passes the elements
that are to come before it and stops at the first one that is not. -/
def insertBy (before : Nat × Nat → Nat × Nat → Bool) (x : Nat × Nat) :
    List (Nat × Nat) → List (Nat × Nat)
  | [] => [x]
  | y :: ys => if before y x then y :: insertBy before x ys else x :: y :: ys

/-- A stable insertion sort, one admissible `TArray::Sort`. -/
def insertionSort : PairSort :=
  fun before xs => xs.foldr (insertBy before) []

/-- The function `FMath::Clamp`. -/
def Clamp (X Min Max : Int) : Int :=
  if X < Min then Min else if X < Max then X else Max

/-- The conversion `static_cast<int32>(n * 0.2)`. For `0 ≤ n ≤ 512` the rounded
`double` product is within `2^-40` of `n / 5` and is not below it when 5 divides `n` (the
`double` nearest to 0.2 is larger than 1/5), so its truncation is `⌊n / 5⌋`. -/
def truncFifth (n : Int) : Int := n / 5

/-- The conversion `static_cast<int32>(n * 0.25)`; the product is exact. -/
def truncQuarter (n : Int) : Int := n / 4

/-- The loop `for (i = 0; i < NumToConsider; ++i) TopBins.Add(BinCounts[i])`. -/
def takeTopBins (BinCounts : List (Nat × Nat)) : Nat → Except Fault (List (Nat × Nat))
  | 0 => .ok []
  | i + 1 =>
    match takeTopBins BinCounts i with
    | .ok TopBins =>
      match arrayAt BinCounts (i : Int) with
      | .ok pair => .ok (TopBins ++ [pair])
      | .error e => .error e
    | .error e => .error e

/-- The list `BinCounts` of `(bin, count)` pairs of the populated bins, in
ascending bin order, before it is sorted. -/
def collectBinCounts (Histogram : List Nat) : List (Nat × Nat) :=
  (List.range NumBins).filterMap
    (fun i => if Histogram.getD i 0 > 0 then some (i, Histogram.getD i 0) else none)

/-- Second half of the accent selection: from the first `Sort` of `BinCounts` to the decoded
`Accent`. -/
def pickAccent (sort : PairSort) (BinCounts0 : List (Nat × Nat)) : Except Fault FColor :=
  let BinCounts := sort (fun A B => decide (A.2 > B.2)) BinCounts0
  let NumToConsider := Clamp (truncFifth BinCounts.length) 1 BinCounts.length
  match takeTopBins BinCounts NumToConsider.toNat with
  | .ok TopBins0 =>
    let TopBins := sort (fun A B => decide (GetBrightness A.1 > GetBrightness B.1)) TopBins0
    let PickIndex := Clamp (truncQuarter TopBins.length) 0 ((TopBins.length : Int) - 1)
    match arrayAt TopBins PickIndex with
    | .ok pair => .ok (decodeAccent pair.1)
    | .error e => .error e
  | .error e => .error e

/-- Accent selection of `OnPixelsReady`: from the filling of `BinCounts` to `Accent`. -/
def selectAccent (sort : PairSort) (Histogram : List Nat) : Except Fault FColor :=
  pickAccent sort (collectBinCounts Histogram)

/-- The pipeline for a given number of tasks: build the histogram, then select. -/
def pipeline (sort : PairSort) (fuel : Nat) (Pixels : List FColor) (DownsampleFactor : Int)
    (Tasks : Nat) : Except Fault FColor :=
  match buildHistogram fuel Pixels DownsampleFactor Tasks with
  | .ok Histogram => selectAccent sort Histogram
  | .error e => .error e

/-- Number of low bits that a natural number has beyond 24 significant bits. -/
def excessBits : Nat → Nat → Nat
  | 0, _ => 0
  | fuel + 1, X => if X < 16777216 then 0 else 1 + excessBits fuel (X / 2)

/-- Rounding of a natural number to the 24 significant bits of a `float`, to nearest and
ties to even. -/
def roundTo24 (X : Nat) : Nat :=
  let s := excessBits 64 X
  let q := X / 2 ^ s
  let r := X % 2 ^ s
  if 2 * r < 2 ^ s then q * 2 ^ s
  else if 2 * r = 2 ^ s ∧ q % 2 = 0 then q * 2 ^ s
  else (q + 1) * 2 ^ s

/-- The number of tasks: `FMath::Max(1, (int)(GetNumThreads() * 0.75f))`. The thread count
is converted to `float` (`roundTo24`), the product with `0.75f = 3 / 4` is rounded to
`float` again (in units of a quarter: `roundTo24` of three times the count), and the
`(int)` cast truncates. -/
def numTasks (NumThreads : Nat) : Nat := max 1 (roundTo24 (3 * roundTo24 NumThreads) / 4)

/-- The lambda `OnPixelsReady`, the value being the colour broadcast on success. -/
def OnPixelsReady (sort : PairSort) (NumThreads : Nat) (DownsampleFactor : Int) (fuel : Nat)
    (Pixels : List FColor) : Except Fault FColor :=
  pipeline sort fuel Pixels DownsampleFactor (numTasks NumThreads)

/-- The value of `NumToConsider`, computed from the sorted `BinCounts`. -/
def NumToConsider (BinCounts : List (Nat × Nat)) : Int :=
  Clamp (truncFifth BinCounts.length) 1 BinCounts.length

/-- The value of `PickIndex`, computed from the sorted `TopBins`. -/
def PickIndex (TopBins : List (Nat × Nat)) : Int :=
  Clamp (truncQuarter TopBins.length) 0 ((TopBins.length : Int) - 1)

/-- The array `TopBins` as the copy loop leaves it, before its brightness sort: the popular
colours subset. -/
def popularSubset (sort : PairSort) (BinCounts0 : List (Nat × Nat)) :
    Except Fault (List (Nat × Nat)) :=
  let BinCounts := sort (fun A B => decide (A.2 > B.2)) BinCounts0
  takeTopBins BinCounts (NumToConsider BinCounts).toNat

/-- The synchronisation steps of the tasks alone: the local histograms are added into the
all-zero global histogram in the order of the list. -/
def mergeAll (locals : List (List Nat)) : List Nat :=
  locals.foldl syncHistogram (List.replicate NumBins 0)

/-- The local histogram that task `Index` has accumulated when its sampling loop ends. -/
def localHistogram (Pixels : List FColor) (DownsampleFactor : Int) (ChunkSize : Nat)
    (fuel : Nat) (Index : Nat) : Except Fault (List Nat) :=
  sampleChunk Pixels DownsampleFactor
    ((min Pixels.length (ChunkSize * (Index + 1)) : Nat) : Int) fuel
    ((ChunkSize * Index : Nat) : Int) (List.replicate NumBins 0)

/-- No addition of the stride `S` to a sampled index overflows, for the chunks of size `cs`
of tasks `0, …, C - 1`. -/
def StepsFit (Pixels : List FColor) (S cs C : Nat) : Prop :=
  ∀ i, i < C → ∀ q, cs * i ≤ q → q < min Pixels.length (cs * (i + 1)) →
    (q - cs * i) % S = 0 → q + S ≤ max 2147483647 Pixels.length

/-- Bin of the pixel at index `p` of the buffer, when there is one. -/
def binAt (Pixels : List FColor) (p : Nat) : Option Nat := (Pixels[p]?).map QuantizeColor

/-- Number of indices `q` of `[lo, hi)` at a multiple of `S` from `lo` whose pixel falls in
bin `b`. -/
def hits (Pixels : List FColor) (S lo hi b : Nat) : Nat :=
  ∑ q in Finset.Ico lo hi, if (q - lo) % S = 0 ∧ binAt Pixels q = some b then 1 else 0

/-- Number of indices `p` below `min N (C * cs)`, `cs = max 1 (N / C)`, with
`(p mod cs) mod S = 0` whose pixel falls in bin `b`. -/
def sampledCount (Pixels : List FColor) (S C b : Nat) : Nat :=
  ((Finset.range (min Pixels.length (C * max 1 (Pixels.length / C)))).filter
    (fun p => (p % max 1 (Pixels.length / C)) % S = 0 ∧ binAt Pixels p = some b)).card

/-- Number of populated (non-zero) bins of a histogram. -/
def populated (H : List Nat) : Nat :=
  H.countP (fun c => decide (0 < c))

/-- Number of bins whose count is strictly larger than the count of bin `k`. -/
def strictlyAbove (H : List Nat) (k : Nat) : Nat :=
  H.countP (fun c => decide (H.getD k 0 < c))

/-- A histogram with ten populated bins: bin 0 (black) ten times, bin 511 (white) nine
times, bins 1 to 8 once each. -/
def tenBinHistogram : List Nat := 10 :: (List.replicate 8 1 ++ List.replicate 502 0 ++ [9])

/-- A histogram with two populated bins: bin 0 (brightness 0) with 80 pixels and bin 505
(brightness 480) with 20 pixels. -/
def twoBinHistogram : List Nat := 80 :: (List.replicate 504 0 ++ 20 :: List.replicate 6 0)

/-- A histogram with six populated bins: bins 0 to 5 with counts 6, 5, 4, 3, 2, 1. -/
def sixBinHistogram : List Nat := [6, 5, 4, 3, 2, 1] ++ List.replicate 506 0

/-- A buffer of four pixels, of bins 448, 7, 448, 7. -/
def fourPixels : List FColor :=
  [⟨255, 0, 0, 255⟩, ⟨0, 0, 255, 255⟩, ⟨255, 0, 0, 9⟩, ⟨0, 0, 255, 255⟩]

/-- The 4 × 4 all-red image. -/
def redImage : List FColor := List.replicate 16 ⟨255, 0, 0, 255⟩

/-! ## Quantiser -/

theorem shift_pack_aux :
    ∀ a, a < 8 → ∀ b, b < 8 → ∀ c, c < 8 →
      (a <<< 6) ||| (b <<< 3) ||| c = 64 * a + 8 * b + c := by
  decide

theorem shift_pack (a b c : Nat) (ha : a < 8) (hb : b < 8) (hc : c < 8) :
    (a <<< 6) ||| (b <<< 3) ||| c = 64 * a + 8 * b + c :=
  shift_pack_aux a ha b hb c hc

theorem QuantizeColor_eq (Color : FColor) :
    QuantizeColor Color = 64 * (Color.R.val / 32) + 8 * (Color.G.val / 32) + Color.B.val / 32 := by
  have hR := Color.R.isLt
  have hG := Color.G.isLt
  have hB := Color.B.isLt
  unfold QuantizeColor
  simp only [Nat.shiftRight_eq_div_pow]
  apply shift_pack <;> omega

theorem QuantizeColor_lt (Color : FColor) : QuantizeColor Color < NumBins := by
  have hR := Color.R.isLt
  have hG := Color.G.isLt
  have hB := Color.B.isLt
  rw [QuantizeColor_eq]
  unfold NumBins
  omega

set_option maxRecDepth 100000 in
theorem decode_eq_aux :
    ∀ b, b < 512 →
      decodeR b = 32 * (b / 64) ∧ decodeG b = 32 * (b / 8 % 8) ∧ decodeB b = 32 * (b % 8) := by
  unfold decodeR decodeG decodeB
  decide

theorem decodeAccent_val (b : Nat) (hb : b < 512) :
    (decodeAccent b).R.val = 32 * (b / 64) ∧ (decodeAccent b).G.val = 32 * (b / 8 % 8) ∧
      (decodeAccent b).B.val = 32 * (b % 8) ∧ (decodeAccent b).A.val = 255 := by
  obtain ⟨h1, h2, h3⟩ := decode_eq_aux b hb
  simp only [decodeAccent, toUInt8, h1, h2, h3]
  refine ⟨?_, ?_, ?_, rfl⟩ <;> omega

theorem QuantizeColor_decodeAccent (b : Nat) (hb : b < 512) :
    QuantizeColor (decodeAccent b) = b := by
  obtain ⟨hR, hG, hB, _⟩ := decodeAccent_val b hb
  rw [QuantizeColor_eq, hR, hG, hB]
  omega

/-- Claim C8: `QuantizeColor` returns `((R >> 5) << 6) | ((G >> 5) << 3) | (B >> 5)`, the
value is a bin index below 512, and replacing the alpha channel by any other value leaves
it unchanged. -/
theorem quantize_total_alpha_free (Color : FColor) :
    QuantizeColor Color =
        ((Color.R.val >>> 5) <<< 6) ||| ((Color.G.val >>> 5) <<< 3) ||| (Color.B.val >>> 5) ∧
      QuantizeColor Color < 512 ∧
      ∀ a : Fin 256, QuantizeColor { Color with A := a } = QuantizeColor Color :=
  ⟨rfl, QuantizeColor_lt Color, fun _ => rfl⟩

/-- Claim C9: for every bin `b` below 512 the decoded colour has the channels
`((b >> 6) & 7) << 5`, `((b >> 3) & 7) << 5`, `(b & 7) << 5`, and quantising it gives `b`
back. -/
theorem quantize_decode_roundtrip (b : Nat) (hb : b < 512) :
    QuantizeColor (decodeAccent b) = b ∧
      (decodeAccent b).R.val = ((b >>> 6) &&& 7) <<< 5 ∧
      (decodeAccent b).G.val = ((b >>> 3) &&& 7) <<< 5 ∧
      (decodeAccent b).B.val = (b &&& 7) <<< 5 := by
  obtain ⟨hR, hG, hB, _⟩ := decodeAccent_val b hb
  obtain ⟨h1, h2, h3⟩ := decode_eq_aux b hb
  refine ⟨QuantizeColor_decodeAccent b hb, ?_, ?_, ?_⟩
  · rw [hR]; exact h1.symm
  · rw [hG]; exact h2.symm
  · rw [hB]; exact h3.symm

theorem quantize_decode_roundtrip_witness :
    QuantizeColor (decodeAccent 448) = 448 ∧
      (decodeAccent 448).R.val = ((448 >>> 6) &&& 7) <<< 5 ∧
      (decodeAccent 448).G.val = ((448 >>> 3) &&& 7) <<< 5 ∧
      (decodeAccent 448).B.val = (448 &&& 7) <<< 5 :=
  quantize_decode_roundtrip 448 (by decide)

/-- Claim C10: decoding the bin of a pixel gives, channel by channel, `c - c mod 32`; each
decoded channel `d` is a multiple of 32, at most 224, with `d ≤ c < d + 32`; the alpha is
255; and some pixel (even with alpha 255) is not recovered by decoding its bin. -/
theorem decode_quantize_low_edge :
    (∀ Color : FColor,
      ((decodeAccent (QuantizeColor Color)).R.val = Color.R.val - Color.R.val % 32 ∧
        (decodeAccent (QuantizeColor Color)).G.val = Color.G.val - Color.G.val % 32 ∧
        (decodeAccent (QuantizeColor Color)).B.val = Color.B.val - Color.B.val % 32 ∧
        (decodeAccent (QuantizeColor Color)).A.val = 255) ∧
      ((decodeAccent (QuantizeColor Color)).R.val ≤ Color.R.val ∧
        Color.R.val < (decodeAccent (QuantizeColor Color)).R.val + 32 ∧
        (decodeAccent (QuantizeColor Color)).R.val % 32 = 0 ∧
        (decodeAccent (QuantizeColor Color)).R.val ≤ 224) ∧
      ((decodeAccent (QuantizeColor Color)).G.val ≤ Color.G.val ∧
        Color.G.val < (decodeAccent (QuantizeColor Color)).G.val + 32 ∧
        (decodeAccent (QuantizeColor Color)).G.val % 32 = 0 ∧
        (decodeAccent (QuantizeColor Color)).G.val ≤ 224) ∧
      ((decodeAccent (QuantizeColor Color)).B.val ≤ Color.B.val ∧
        Color.B.val < (decodeAccent (QuantizeColor Color)).B.val + 32 ∧
        (decodeAccent (QuantizeColor Color)).B.val % 32 = 0 ∧
        (decodeAccent (QuantizeColor Color)).B.val ≤ 224)) ∧
    ∃ Color : FColor, Color.A = 255 ∧ decodeAccent (QuantizeColor Color) ≠ Color := by
  refine ⟨fun Color => ?_, ⟨⟨1, 0, 0, 255⟩, rfl, by decide⟩⟩
  have hR := Color.R.isLt
  have hG := Color.G.isLt
  have hB := Color.B.isLt
  obtain ⟨h1, h2, h3, h4⟩ := decodeAccent_val (QuantizeColor Color) (QuantizeColor_lt Color)
  rw [h1, h2, h3, h4, QuantizeColor_eq]
  refine ⟨⟨?_, ?_, ?_, rfl⟩, ?_, ?_, ?_⟩ <;> omega

/-! ## Histogram builder -/

theorem arrayAt_natCast {α : Type} (xs : List α) (i : Nat) (x : α) (h : xs[i]? = some x) :
    arrayAt xs (i : Int) = .ok x := by
  unfold arrayAt
  have h0 : ¬ ((i : Int) < 0) := by omega
  rw [if_neg h0, Int.toNat_ofNat, h]

theorem incr_length (h : List Nat) (i : Nat) : (incr h i).length = h.length := by
  simp [incr]

theorem incr_getD (h : List Nat) (i b : Nat) (hi : i < h.length) :
    (incr h i).getD b 0 = h.getD b 0 + if i = b then 1 else 0 := by
  unfold incr
  by_cases hib : i = b
  · subst hib
    simp [List.getD_eq_getElem?_getD, List.getElem?_set, hi]
  · simp [List.getD_eq_getElem?_getD, List.getElem?_set, hib]

theorem hits_empty (Pixels : List FColor) (S lo hi b : Nat) (h : hi ≤ lo) :
    hits Pixels S lo hi b = 0 := by
  unfold hits
  rw [Finset.Ico_eq_empty (by omega)]
  rfl

theorem hits_step (Pixels : List FColor) (S lo hi b : Nat) (hS : 1 ≤ S) (h : lo < hi) :
    hits Pixels S lo hi b =
      (if binAt Pixels lo = some b then 1 else 0) + hits Pixels S (lo + S) hi b := by
  unfold hits
  rw [Finset.sum_eq_sum_Ico_succ_bot h]
  congr 1
  · simp
  · have hsub : Finset.Ico (lo + S) hi ⊆ Finset.Ico (lo + 1) hi := by
      intro q hq
      rw [Finset.mem_Ico] at hq ⊢
      omega
    have hz : ∀ q ∈ Finset.Ico (lo + 1) hi, q ∉ Finset.Ico (lo + S) hi →
        (if (q - lo) % S = 0 ∧ binAt Pixels q = some b then 1 else 0) = 0 := by
      intro q hq hq2
      rw [Finset.mem_Ico] at hq hq2
      have h1 : q - lo < S := by omega
      have h2 : (q - lo) % S ≠ 0 := by
        rw [Nat.mod_eq_of_lt h1]
        omega
      simp [h2]
    rw [← Finset.sum_subset hsub hz]
    apply Finset.sum_congr rfl
    intro q hq
    rw [Finset.mem_Ico] at hq
    have e : q - lo = (q - (lo + S)) + S := by omega
    rw [e, Nat.add_mod_right]

theorem advance_eq (Pixels : List FColor) (p S : Nat)
    (h : p + S ≤ max 2147483647 Pixels.length) :
    advance Pixels (p : Int) (S : Int) = ((p + S : Nat) : Int) := by
  unfold advance indexMax
  rw [if_pos (by omega)]
  omega

theorem sampleChunk_ok (Pixels : List FColor) (S hi : Nat) (hS : 1 ≤ S)
    (hhi : hi ≤ Pixels.length) :
    ∀ (fuel p : Nat) (h : List Nat), hi - p ≤ fuel → h.length = NumBins →
      (∀ q, p ≤ q → q < hi → (q - p) % S = 0 → q + S ≤ max 2147483647 Pixels.length) →
      ∃ h1, sampleChunk Pixels (S : Int) (hi : Int) fuel (p : Int) h = .ok h1 ∧
        h1.length = NumBins ∧ ∀ b, h1.getD b 0 = h.getD b 0 + hits Pixels S p hi b := by
  intro fuel
  induction fuel with
  | zero =>
    intro p h hf hlen _
    have hp : ¬ ((p : Int) < (hi : Int)) := by omega
    refine ⟨h, by simp [sampleChunk, hp], hlen, fun b => ?_⟩
    rw [hits_empty Pixels S p hi b (by omega)]
    rfl
  | succ fuel ih =>
    intro p h hf hlen hfit
    by_cases hp : p < hi
    · have hpI : (p : Int) < (hi : Int) := by omega
      have hpN : p < Pixels.length := by omega
      have hget : Pixels[p]? = some Pixels[p] := List.getElem?_eq_getElem hpN
      have hq : QuantizeColor Pixels[p] < h.length := by
        rw [hlen]
        exact QuantizeColor_lt _
      have hadv := advance_eq Pixels p S
        (hfit p (Nat.le_refl p) hp (by rw [Nat.sub_self, Nat.zero_mod]))
      obtain ⟨h1, e1, l1, g1⟩ := ih (p + S) (incr h (QuantizeColor Pixels[p])) (by omega)
        (by rw [incr_length]; exact hlen)
        (by
          intro q hq1 hq2 hq3
          apply hfit q (by omega) hq2
          have e : q - p = (q - (p + S)) + S := by omega
          rw [e, Nat.add_mod_right]
          exact hq3)
      refine ⟨h1, ?_, l1, fun b => ?_⟩
      · rw [sampleChunk, if_pos hpI, arrayAt_natCast Pixels p _ hget]
        simp only []
        rw [hadv]
        exact e1
      · rw [g1 b, incr_getD h _ b hq, hits_step Pixels S p hi b hS hp]
        have hb : binAt Pixels p = some (QuantizeColor Pixels[p]) := by
          simp [binAt, hget]
        rw [hb]
        simp only [Option.some.injEq]
        omega
    · have hpI : ¬ ((p : Int) < (hi : Int)) := by omega
      refine ⟨h, by simp [sampleChunk, hpI], hlen, fun b => ?_⟩
      rw [hits_empty Pixels S p hi b (by omega)]
      rfl

theorem syncHistogram_length (H L : List Nat) (hH : H.length = NumBins)
    (hL : L.length = NumBins) : (syncHistogram H L).length = NumBins := by
  simp [syncHistogram, hH, hL]

theorem syncHistogram_getD (H L : List Nat) (hH : H.length = NumBins)
    (hL : L.length = NumBins) (b : Nat) :
    (syncHistogram H L).getD b 0 = H.getD b 0 + L.getD b 0 := by
  unfold syncHistogram
  simp only [List.getD_eq_getElem?_getD, List.getElem?_zipWith]
  by_cases hb : b < NumBins
  · have h1 : H[b]? = some H[b] := List.getElem?_eq_getElem (by omega)
    have h2 : L[b]? = some L[b] := List.getElem?_eq_getElem (by omega)
    rw [h1, h2]
    simp only [Option.getD_some]
    by_cases hz : L[b] > 0
    · simp [hz]
    · have : L[b] = 0 := by omega
      simp [this]
  · have h1 : H[b]? = none := List.getElem?_eq_none (by omega)
    have h2 : L[b]? = none := List.getElem?_eq_none (by omega)
    rw [h1, h2]
    rfl

theorem replicate_zero_getD (n b : Nat) : (List.replicate n 0).getD b 0 = 0 := by
  simp only [List.getD_eq_getElem?_getD, List.getElem?_replicate]
  split <;> rfl

theorem taskBody_ok (Pixels : List FColor) (S cs fuel : Nat) (hS : 1 ≤ S)
    (hf : Pixels.length ≤ fuel) (H : List Nat) (hH : H.length = NumBins) (i : Nat)
    (hfit : ∀ q, cs * i ≤ q → q < min Pixels.length (cs * (i + 1)) →
      (q - cs * i) % S = 0 → q + S ≤ max 2147483647 Pixels.length) :
    ∃ H1, taskBody Pixels (S : Int) cs fuel H i = .ok H1 ∧ H1.length = NumBins ∧
      ∀ b, H1.getD b 0 =
        H.getD b 0 + hits Pixels S (cs * i) (min Pixels.length (cs * (i + 1))) b := by
  obtain ⟨L, e, hl, g⟩ := sampleChunk_ok Pixels S (min Pixels.length (cs * (i + 1))) hS
    (Nat.min_le_left _ _) fuel (cs * i) (List.replicate NumBins 0) (by omega) (by simp) hfit
  refine ⟨syncHistogram H L, ?_, syncHistogram_length H L hH hl, fun b => ?_⟩
  · unfold taskBody
    rw [e]
  · rw [syncHistogram_getD H L hH hl b, g b, replicate_zero_getD, Nat.zero_add]

theorem parallelFor_ok (Pixels : List FColor) (S cs fuel : Nat) (hS : 1 ≤ S)
    (hf : Pixels.length ≤ fuel) (H : List Nat) (hH : H.length = NumBins) :
    ∀ Tasks : Nat, StepsFit Pixels S cs Tasks →
      ∃ H1, parallelFor Pixels (S : Int) cs fuel Tasks H = .ok H1 ∧
      H1.length = NumBins ∧
      ∀ b, H1.getD b 0 =
        H.getD b 0 + ∑ i in Finset.range Tasks,
          hits Pixels S (cs * i) (min Pixels.length (cs * (i + 1))) b := by
  intro Tasks
  induction Tasks with
  | zero => exact fun _ => ⟨H, rfl, hH, fun b => by simp⟩
  | succ n ih =>
    intro hfit
    obtain ⟨H1, e1, l1, g1⟩ := ih (fun i hi => hfit i (Nat.lt_succ_of_lt hi))
    obtain ⟨H2, e2, l2, g2⟩ := taskBody_ok Pixels S cs fuel hS hf H1 l1 n
      (hfit n (Nat.lt_succ_self n))
    refine ⟨H2, ?_, l2, fun b => ?_⟩
    · rw [parallelFor, e1]
      exact e2
    · rw [g2 b, g1 b, Finset.sum_range_succ]
      omega

theorem hits_chunk (Pixels : List FColor) (S cs i hi b : Nat) (hhi : hi ≤ cs * (i + 1)) :
    hits Pixels S (cs * i) hi b =
      ∑ q in Finset.Ico (cs * i) hi,
        if (q % cs) % S = 0 ∧ binAt Pixels q = some b then 1 else 0 := by
  unfold hits
  apply Finset.sum_congr rfl
  intro q hq
  rw [Finset.mem_Ico] at hq
  have h1 : q - cs * i < cs := by
    rw [Nat.mul_succ] at hhi
    omega
  have h2 : q % cs = q - cs * i := by
    have e : q = cs * i + (q - cs * i) := by omega
    rw [e, Nat.mul_add_mod, Nat.mod_eq_of_lt]
    · omega
    · omega
  rw [h2]

theorem sum_chunks (Pixels : List FColor) (S cs b : Nat) :
    ∀ C : Nat,
      (∑ i in Finset.range C, hits Pixels S (cs * i) (min Pixels.length (cs * (i + 1))) b) =
        ∑ q in Finset.range (min Pixels.length (cs * C)),
          if (q % cs) % S = 0 ∧ binAt Pixels q = some b then 1 else 0 := by
  intro C
  induction C with
  | zero => simp
  | succ n ih =>
    rw [Finset.sum_range_succ, ih, hits_chunk Pixels S cs n _ b (Nat.min_le_right _ _)]
    have hmul : cs * (n + 1) = cs * n + cs := Nat.mul_succ cs n
    by_cases hN : Pixels.length ≤ cs * n
    · have e1 : min Pixels.length (cs * n) = Pixels.length := by omega
      have e2 : min Pixels.length (cs * (n + 1)) = Pixels.length := by omega
      rw [e1, e2, Finset.Ico_eq_empty (by omega)]
      simp
    · have e1 : min Pixels.length (cs * n) = cs * n := by omega
      rw [e1, Finset.range_eq_Ico]
      exact Finset.sum_Ico_consecutive _ (Nat.zero_le _) (by omega)

theorem stepsFit_of_bound (Pixels : List FColor) (S cs C : Nat)
    (h : Pixels.length + S ≤ 2147483648) : StepsFit Pixels S cs C := by
  intro i _ q _ hq _
  omega

theorem buildHistogram_ok (fuel : Nat) (Pixels : List FColor) (S C : Nat) (hS : 1 ≤ S)
    (hf : Pixels.length ≤ fuel) (hfit : StepsFit Pixels S (max 1 (Pixels.length / C)) C) :
    ∃ H, buildHistogram fuel Pixels (S : Int) C = .ok H ∧ H.length = NumBins ∧
      ∀ b, H.getD b 0 = sampledCount Pixels S C b := by
  obtain ⟨H, e, hl, g⟩ := parallelFor_ok Pixels S (max 1 (Pixels.length / C)) fuel hS hf
    (List.replicate NumBins 0) (by simp) C hfit
  refine ⟨H, e, hl, fun b => ?_⟩
  rw [g b, sum_chunks, sampledCount, Finset.card_filter, Nat.mul_comm C, replicate_zero_getD,
    Nat.zero_add]

theorem ceil_div_step (S lo hi : Nat) (hS : 1 ≤ S) (h : lo < hi) :
    (hi - lo + S - 1) / S = 1 + (hi - (lo + S) + S - 1) / S := by
  by_cases hc : lo + S ≤ hi
  · have e : hi - lo + S - 1 = (hi - (lo + S) + S - 1) + S := by omega
    rw [e, Nat.add_div_right _ (by omega)]
    omega
  · have e0 : hi - (lo + S) + S - 1 = S - 1 := by omega
    have e1 : (S - 1) / S = 0 := Nat.div_eq_of_lt (by omega)
    have e2 : (hi - lo + S - 1) / S = 1 :=
      Nat.div_eq_of_lt_le (by omega) (by omega)
    rw [e0, e1, e2]

theorem ceil_div_le (L S : Nat) (hS : 1 ≤ S) : (L + S - 1) / S ≤ L := by
  obtain ⟨s, rfl⟩ : ∃ s, S = s + 1 := ⟨S - 1, by omega⟩
  cases L with
  | zero =>
    have e : (0 + (s + 1) - 1) / (s + 1) = 0 := Nat.div_eq_of_lt (by omega)
    omega
  | succ l =>
    apply Nat.div_le_of_le_mul
    have e : (s + 1) * (l + 1) = s * l + s + l + 1 := by ring
    omega

theorem hits_total (Pixels : List FColor) (S hi : Nat) (hS : 1 ≤ S)
    (hhi : hi ≤ Pixels.length) :
    ∀ n lo : Nat, hi - lo ≤ n →
      (∑ b in Finset.range NumBins, hits Pixels S lo hi b) = (hi - lo + S - 1) / S := by
  intro n
  induction n with
  | zero =>
    intro lo h
    have e : hi - lo + S - 1 = S - 1 := by omega
    rw [e, Nat.div_eq_of_lt (by omega)]
    apply Finset.sum_eq_zero
    intro b _
    exact hits_empty Pixels S lo hi b (by omega)
  | succ n ih =>
    intro lo h
    by_cases hlo : lo < hi
    · have hget : Pixels[lo]? = some Pixels[lo] := List.getElem?_eq_getElem (by omega)
      have hb : binAt Pixels lo = some (QuantizeColor Pixels[lo]) := by
        simp [binAt, hget]
      have hone : (∑ b in Finset.range NumBins,
          if binAt Pixels lo = some b then 1 else 0) = 1 := by
        rw [hb]
        simp only [Option.some.injEq]
        rw [Finset.sum_ite_eq, if_pos]
        rw [Finset.mem_range]
        exact QuantizeColor_lt _
      rw [Finset.sum_congr rfl (fun b _ => hits_step Pixels S lo hi b hS hlo),
        Finset.sum_add_distrib, hone, ih (lo + S) (by omega)]
      exact (ceil_div_step S lo hi hS hlo).symm
    · have e : hi - lo + S - 1 = S - 1 := by omega
      rw [e, Nat.div_eq_of_lt (by omega)]
      apply Finset.sum_eq_zero
      intro b _
      exact hits_empty Pixels S lo hi b (by omega)

theorem list_sum_eq_sum_getD (l : List Nat) :
    l.sum = ∑ i in Finset.range l.length, l.getD i 0 := by
  induction l with
  | nil => simp
  | cons a l ih =>
    rw [List.sum_cons, List.length_cons, Finset.sum_range_succ', ih]
    simp [Nat.add_comm]

theorem buildHistogram_chunks (fuel : Nat) (Pixels : List FColor) (S C : Nat) (hS : 1 ≤ S)
    (hf : Pixels.length ≤ fuel) (hfit : StepsFit Pixels S (max 1 (Pixels.length / C)) C) :
    ∃ H, buildHistogram fuel Pixels (S : Int) C = .ok H ∧ H.length = NumBins ∧
      ∀ b, H.getD b 0 = ∑ i in Finset.range C,
        hits Pixels S (max 1 (Pixels.length / C) * i)
          (min Pixels.length (max 1 (Pixels.length / C) * (i + 1))) b := by
  obtain ⟨H, e, hl, g⟩ := parallelFor_ok Pixels S (max 1 (Pixels.length / C)) fuel hS hf
    (List.replicate NumBins 0) (by simp) C hfit
  refine ⟨H, e, hl, fun b => ?_⟩
  rw [g b, replicate_zero_getD, Nat.zero_add]

theorem buildHistogram_sum (fuel : Nat) (Pixels : List FColor) (S C : Nat) (hS : 1 ≤ S)
    (hf : Pixels.length ≤ fuel) (hfit : StepsFit Pixels S (max 1 (Pixels.length / C)) C) :
    ∃ H, buildHistogram fuel Pixels (S : Int) C = .ok H ∧ H.length = NumBins ∧
      H.sum = ∑ i in Finset.range C,
        (min Pixels.length (max 1 (Pixels.length / C) * (i + 1)) -
          max 1 (Pixels.length / C) * i + S - 1) / S := by
  obtain ⟨H, e, hl, g⟩ := buildHistogram_chunks fuel Pixels S C hS hf hfit
  refine ⟨H, e, hl, ?_⟩
  rw [list_sum_eq_sum_getD, hl, Finset.sum_congr rfl (fun b _ => g b), Finset.sum_comm]
  apply Finset.sum_congr rfl
  intro i _
  exact hits_total Pixels S _ hS (Nat.min_le_left _ _) _ _ (Nat.le_refl _)

theorem chunk_lengths_sum (N cs S : Nat) (hS : 1 ≤ S) :
    ∀ C : Nat, (∑ i in Finset.range C, (min N (cs * (i + 1)) - cs * i + S - 1) / S) ≤
      min N (cs * C) := by
  intro C
  induction C with
  | zero => simp
  | succ n ih =>
    rw [Finset.sum_range_succ]
    have hmul : cs * (n + 1) = cs * n + cs := Nat.mul_succ cs n
    have hc := ceil_div_le (min N (cs * (n + 1)) - cs * n) S hS
    omega

theorem ext_getD (H1 H2 : List Nat) (h : H1.length = H2.length)
    (g : ∀ b, H1.getD b 0 = H2.getD b 0) : H1 = H2 := by
  apply List.ext_getElem h
  intro n h1 h2
  have := g n
  rwa [List.getD_eq_getElem _ _ h1, List.getD_eq_getElem _ _ h2] at this

/-- In the range `N + S ≤ 2^31`, where the stride addition does not overflow: the
histogram is built (given fuel `N`) and the count of every bin `b < 512` is the number of
indices `p < min N (C * cs)`, `cs = max 1 (N / C)`, with `(p mod cs) mod S = 0` whose pixel
quantises to `b`. -/
theorem histogram_counts_in_range (fuel : Nat) (Pixels : List FColor) (S C : Nat)
    (hS : 1 ≤ S) (hov : Pixels.length + S ≤ 2147483648) (hf : Pixels.length ≤ fuel) :
    ∃ H, buildHistogram fuel Pixels (S : Int) C = .ok H ∧ H.length = 512 ∧
      ∀ b, b < 512 → H.getD b 0 =
        ((Finset.range (min Pixels.length (C * max 1 (Pixels.length / C)))).filter
          (fun p => (p % max 1 (Pixels.length / C)) % S = 0 ∧
            (Pixels[p]?).map QuantizeColor = some b)).card := by
  obtain ⟨H, e, hl, g⟩ := buildHistogram_ok fuel Pixels S C hS hf
    (stepsFit_of_bound Pixels S _ C hov)
  exact ⟨H, e, hl, fun b _ => g b⟩

/-- In the range `N + S ≤ 2^31`: chunk `i` being `[i * cs, min N ((i + 1) * cs))` with
`cs = max 1 (N / C)`, the histogram is built and the sum of its 512 counts is the sum over
the chunks of `⌈chunk length / S⌉` (written `(len + S - 1) / S`), which is at most `N`. -/
theorem histogram_conservation_in_range (fuel : Nat) (Pixels : List FColor) (S C : Nat)
    (hS : 1 ≤ S) (hov : Pixels.length + S ≤ 2147483648) (hf : Pixels.length ≤ fuel) :
    ∃ H, buildHistogram fuel Pixels (S : Int) C = .ok H ∧ H.length = 512 ∧
      H.sum = ∑ i in Finset.range C,
        (min Pixels.length ((i + 1) * max 1 (Pixels.length / C)) -
          i * max 1 (Pixels.length / C) + S - 1) / S ∧
      H.sum ≤ Pixels.length := by
  obtain ⟨H, e, hl, g⟩ := buildHistogram_sum fuel Pixels S C hS hf
    (stepsFit_of_bound Pixels S _ C hov)
  have hb := chunk_lengths_sum Pixels.length (max 1 (Pixels.length / C)) S hS C
  refine ⟨H, e, hl, ?_, ?_⟩
  · rw [g]
    apply Finset.sum_congr rfl
    intro i _
    rw [Nat.mul_comm (i + 1), Nat.mul_comm i]
  · rw [g]
    exact le_trans hb (Nat.min_le_left _ _)

theorem sampledCount_one (Pixels : List FColor) (S b : Nat) :
    sampledCount Pixels S 1 b =
      ((Finset.range Pixels.length).filter
        (fun p => p % S = 0 ∧ binAt Pixels p = some b)).card := by
  unfold sampledCount
  rw [Nat.div_one, Nat.one_mul]
  by_cases hN : Pixels.length = 0
  · rw [hN]
    rfl
  · have e1 : max 1 Pixels.length = Pixels.length := by omega
    rw [e1, Nat.min_self]
    congr 1
    apply Finset.filter_congr
    intro p hp
    rw [Finset.mem_range] at hp
    rw [Nat.mod_eq_of_lt hp]

theorem sampledCount_cover (Pixels : List FColor) (S K b : Nat)
    (hcov : Pixels.length ≤ K * max 1 (Pixels.length / K))
    (hdvd : S ∣ max 1 (Pixels.length / K)) :
    sampledCount Pixels S K b =
      ((Finset.range Pixels.length).filter
        (fun p => p % S = 0 ∧ binAt Pixels p = some b)).card := by
  unfold sampledCount
  rw [Nat.min_eq_left hcov]
  congr 1
  apply Finset.filter_congr
  intro p _
  rw [Nat.mod_mod_of_dvd p hdvd]

theorem dvd_step (S a b : Nat) (ha : a % S = 0) (hb : S ∣ b) (hlt : a < b) : a + S ≤ b := by
  obtain ⟨y, rfl⟩ := hb
  obtain ⟨x, rfl⟩ := Nat.dvd_of_mod_eq_zero ha
  by_cases hS : S = 0
  · subst hS
    omega
  · have hxy : x < y := Nat.lt_of_mul_lt_mul_left hlt
    have h1 : S * (x + 1) ≤ S * y := Nat.mul_le_mul_left S hxy
    rw [Nat.mul_succ] at h1
    exact h1

theorem cover_cases (N S K : Nat) (hcov : N ≤ K * max 1 (N / K))
    (hdvd : S ∣ max 1 (N / K)) :
    (K * max 1 (N / K) = N) ∨ (N < K ∧ max 1 (N / K) = 1 ∧ S = 1) := by
  by_cases hKN : K ≤ N
  · left
    by_cases hK0 : K = 0
    · subst hK0
      omega
    · have hq : 1 ≤ N / K := (Nat.one_le_div_iff (by omega)).2 hKN
      have hcs : max 1 (N / K) = N / K := by omega
      have h2 : N / K * K ≤ N := Nat.div_mul_le_self N K
      rw [hcs] at hcov ⊢
      rw [Nat.mul_comm] at h2
      omega
  · right
    have hq : N / K = 0 := Nat.div_eq_of_lt (by omega)
    have hcs : max 1 (N / K) = 1 := by omega
    rw [hcs] at hdvd
    exact ⟨by omega, hcs, Nat.dvd_one.1 hdvd⟩

theorem stepsFit_cover (Pixels : List FColor) (S K : Nat)
    (hcov : Pixels.length ≤ K * max 1 (Pixels.length / K))
    (hdvd : S ∣ max 1 (Pixels.length / K)) :
    StepsFit Pixels S (max 1 (Pixels.length / K)) K := by
  intro i hi q hq1 hq2 hq3
  rcases cover_cases Pixels.length S K hcov hdvd with h | ⟨_, hcs, hS1⟩
  · have hmul : max 1 (Pixels.length / K) * (i + 1) =
        max 1 (Pixels.length / K) * i + max 1 (Pixels.length / K) := Nat.mul_succ _ _
    have hle : max 1 (Pixels.length / K) * (i + 1) ≤ max 1 (Pixels.length / K) * K :=
      Nat.mul_le_mul_left _ hi
    rw [Nat.mul_comm _ K, h] at hle
    have h3 := dvd_step S (q - max 1 (Pixels.length / K) * i) (max 1 (Pixels.length / K))
      hq3 hdvd (by omega)
    omega
  · rw [hcs] at hq1 hq2
    omega

theorem stepsFit_one (Pixels : List FColor) (S : Nat) (hdvd : S ∣ Pixels.length) :
    StepsFit Pixels S (max 1 (Pixels.length / 1)) 1 := by
  intro i hi q hq1 hq2 hq3
  have hi0 : i = 0 := by omega
  subst hi0
  rw [Nat.mul_zero, Nat.sub_zero] at hq3
  have h3 := dvd_step S q Pixels.length hq3 hdvd (by omega)
  omega

theorem dvd_length_of_cover (N S K : Nat) (hcov : N ≤ K * max 1 (N / K))
    (hdvd : S ∣ max 1 (N / K)) : S ∣ N := by
  rcases cover_cases N S K hcov hdvd with h | ⟨_, _, hS1⟩
  · rw [← h]
    exact Dvd.dvd.mul_left hdvd K
  · rw [hS1]
    exact Nat.one_dvd N

/-- Claim C6, the counterexample: on a buffer of four pixels at stride 3, concurrency hint 1
samples indices 0 and 3 (bin 0 twice), concurrency hint 2 (which divides the length evenly)
samples indices 0 and 2 (bin 0 once, bin 7 once): both histograms are built and they differ
in bins 0 and 7. -/
theorem merge_hint_counterexample :
    (buildHistogram 4
        [⟨0, 0, 0, 255⟩, ⟨0, 0, 0, 255⟩, ⟨0, 0, 255, 255⟩, ⟨0, 0, 0, 255⟩] 3 1).map
        (fun H => (H.getD 0 0, H.getD 7 0)) = .ok (2, 0) ∧
      (buildHistogram 4
        [⟨0, 0, 0, 255⟩, ⟨0, 0, 0, 255⟩, ⟨0, 0, 255, 255⟩, ⟨0, 0, 0, 255⟩] 3 2).map
        (fun H => (H.getD 0 0, H.getD 7 0)) = .ok (1, 1) ∧
      buildHistogram 4
        [⟨0, 0, 0, 255⟩, ⟨0, 0, 0, 255⟩, ⟨0, 0, 255, 255⟩, ⟨0, 0, 0, 255⟩] 3 1 ≠
      buildHistogram 4
        [⟨0, 0, 0, 255⟩, ⟨0, 0, 0, 255⟩, ⟨0, 0, 255, 255⟩, ⟨0, 0, 0, 255⟩] 3 2 := by
  decide

/-- Claim C6, amended: for a non-empty buffer of length `N`, a hint `K > 1` whose `K`
chunks of size `cs = max 1 (N / K)` cover the buffer (`N ≤ K * cs`) and a stride `S ≥ 1`
dividing `cs`, the histograms built with hint 1 and with hint `K` are the same list of 512
counts. -/
theorem merge_hint_invariance (fuel : Nat) (Pixels : List FColor) (S K : Nat)
    (_hN : 1 ≤ Pixels.length) (hS : 1 ≤ S) (_hK : 1 < K)
    (hcov : Pixels.length ≤ K * max 1 (Pixels.length / K))
    (hdvd : S ∣ max 1 (Pixels.length / K)) (hf : Pixels.length ≤ fuel) :
    ∃ H, buildHistogram fuel Pixels (S : Int) 1 = .ok H ∧
      buildHistogram fuel Pixels (S : Int) K = .ok H ∧ H.length = 512 := by
  obtain ⟨H1, e1, l1, g1⟩ := buildHistogram_ok fuel Pixels S 1 hS hf
    (stepsFit_one Pixels S (dvd_length_of_cover Pixels.length S K hcov hdvd))
  obtain ⟨H2, e2, l2, g2⟩ := buildHistogram_ok fuel Pixels S K hS hf
    (stepsFit_cover Pixels S K hcov hdvd)
  have hEq : H2 = H1 := by
    apply ext_getD H2 H1 (by rw [l1, l2])
    intro b
    rw [g1 b, g2 b, sampledCount_one, sampledCount_cover Pixels S K b hcov hdvd]
  rw [hEq] at e2
  exact ⟨H1, e1, e2, l1⟩

theorem merge_hint_invariance_witness :
    ∃ H, buildHistogram 6 [⟨0, 0, 0, 255⟩, ⟨0, 0, 0, 255⟩, ⟨0, 0, 255, 255⟩, ⟨0, 0, 0, 255⟩,
          ⟨9, 9, 9, 9⟩, ⟨200, 100, 0, 255⟩] ((3 : Nat) : Int) 1 = .ok H ∧
      buildHistogram 6 [⟨0, 0, 0, 255⟩, ⟨0, 0, 0, 255⟩, ⟨0, 0, 255, 255⟩, ⟨0, 0, 0, 255⟩,
          ⟨9, 9, 9, 9⟩, ⟨200, 100, 0, 255⟩] ((3 : Nat) : Int) 2 = .ok H ∧ H.length = 512 :=
  merge_hint_invariance 6 [⟨0, 0, 0, 255⟩, ⟨0, 0, 0, 255⟩, ⟨0, 0, 255, 255⟩, ⟨0, 0, 0, 255⟩,
      ⟨9, 9, 9, 9⟩, ⟨200, 100, 0, 255⟩] 3 2
    (by decide) (by decide) (by decide) (by decide) (by decide) (by decide)

set_option maxRecDepth 100000 in
/-- Claim C7, the code at a failing input: three pixels, two tasks, stride 1. The chunk size
is 1, the two tasks read indices 0 and 1, and index 2 (the only pixel of bin 7) is read by
no task: the total is 2, not 3, and bin 7 stays empty. -/
theorem remainder_pixels_dropped :
    (buildHistogram 3 [⟨255, 0, 0, 255⟩, ⟨255, 0, 0, 255⟩, ⟨0, 0, 255, 255⟩] 1 2).map
        (fun H => (H.sum, H.getD 448 0, H.getD 7 0)) = .ok (2, 2, 0) ∧
      QuantizeColor ⟨0, 0, 255, 255⟩ = 7 := by
  decide

/-! ## Sorting and selection -/

theorem insertBy_perm (before : Nat × Nat → Nat × Nat → Bool) (x : Nat × Nat) :
    ∀ l : List (Nat × Nat), List.Perm (insertBy before x l) (x :: l) := by
  intro l
  induction l with
  | nil => exact List.Perm.refl _
  | cons y ys ih =>
    unfold insertBy
    split
    · exact (List.Perm.cons y ih).trans (List.Perm.swap x y ys)
    · exact List.Perm.refl _

theorem insertionSort_perm (before : Nat × Nat → Nat × Nat → Bool) :
    ∀ l : List (Nat × Nat), List.Perm (insertionSort before l) l := by
  intro l
  induction l with
  | nil => exact List.Perm.refl _
  | cons x xs ih =>
    show List.Perm (insertBy before x (insertionSort before xs)) (x :: xs)
    exact (insertBy_perm before x _).trans (List.Perm.cons x ih)

theorem insertBy_sorted (key : Nat × Nat → Nat) (x : Nat × Nat) :
    ∀ l : List (Nat × Nat), List.Pairwise (fun A B => key A ≥ key B) l →
      List.Pairwise (fun A B => key A ≥ key B)
        (insertBy (fun A B => decide (key A > key B)) x l) := by
  intro l
  induction l with
  | nil =>
    intro _
    simp [insertBy]
  | cons y ys ih =>
    intro h
    rw [List.pairwise_cons] at h
    unfold insertBy
    split
    · rename_i hyx
      have hyx1 : key y > key x := of_decide_eq_true hyx
      rw [List.pairwise_cons]
      refine ⟨fun z hz => ?_, ih h.2⟩
      rcases List.mem_cons.1 ((List.Perm.mem_iff (insertBy_perm _ x ys)).1 hz) with hz1 | hz1
      · rw [hz1]
        omega
      · exact h.1 z hz1
    · rename_i hyx
      have hyx1 : ¬ key y > key x := fun hc => hyx (decide_eq_true hc)
      rw [List.pairwise_cons]
      refine ⟨fun z hz => ?_, List.pairwise_cons.2 h⟩
      rcases List.mem_cons.1 hz with hz1 | hz1
      · rw [hz1]
        omega
      · have := h.1 z hz1
        omega

theorem insertionSort_sorts : PairSort.Sorts insertionSort := by
  intro key xs
  refine ⟨insertionSort_perm _ xs, ?_⟩
  induction xs with
  | nil => exact List.Pairwise.nil
  | cons x xs ih => exact insertBy_sorted key x _ ih

theorem clamp_fifth (n : Nat) :
    (Clamp (truncFifth (n : Int)) 1 (n : Int)).toNat = max 1 (n / 5) := by
  unfold Clamp truncFifth
  split_ifs <;> omega

theorem clamp_quarter (m : Nat) (h : 1 ≤ m) :
    Clamp (truncQuarter (m : Int)) 0 ((m : Int) - 1) = ((m / 4 : Nat) : Int) := by
  unfold Clamp truncQuarter
  split_ifs <;> omega

theorem takeTopBins_ok (bc : List (Nat × Nat)) :
    ∀ k : Nat, k ≤ bc.length → takeTopBins bc k = .ok (bc.take k) := by
  intro k
  induction k with
  | zero => intro _; rfl
  | succ k ih =>
    intro h
    have hk : bc[k]? = some bc[k] := List.getElem?_eq_getElem (by omega)
    rw [takeTopBins, ih (by omega), arrayAt_natCast bc k _ hk, List.take_succ, hk]
    rfl

theorem selectAccent_spec (sort : PairSort) (hsort : sort.Sorts) (H : List Nat)
    (hne : collectBinCounts H ≠ []) :
    ∃ bc top pair,
      List.Perm bc (collectBinCounts H) ∧
      List.Pairwise (fun A B : Nat × Nat => A.2 ≥ B.2) bc ∧
      List.Perm top (bc.take (max 1 (bc.length / 5))) ∧
      List.Pairwise (fun A B : Nat × Nat => GetBrightness A.1 ≥ GetBrightness B.1) top ∧
      top[top.length / 4]? = some pair ∧
      selectAccent sort H = .ok (decodeAccent pair.1) := by
  obtain ⟨p1, s1⟩ := hsort (fun A => A.2) (collectBinCounts H)
  obtain ⟨p2, s2⟩ := hsort (fun A => GetBrightness A.1)
    ((sort (fun A B => decide (A.2 > B.2)) (collectBinCounts H)).take
      (max 1 ((sort (fun A B => decide (A.2 > B.2)) (collectBinCounts H)).length / 5)))
  have hn : 1 ≤ (sort (fun A B => decide (A.2 > B.2)) (collectBinCounts H)).length := by
    rw [p1.length_eq]
    exact List.length_pos.2 hne
  have hm : max 1 ((sort (fun A B => decide (A.2 > B.2)) (collectBinCounts H)).length / 5) ≤
      (sort (fun A B => decide (A.2 > B.2)) (collectBinCounts H)).length := by omega
  have hlen2 := p2.length_eq
  rw [List.length_take, Nat.min_eq_left hm] at hlen2
  have hidx : (sort (fun A B => decide (GetBrightness A.1 > GetBrightness B.1))
      ((sort (fun A B => decide (A.2 > B.2)) (collectBinCounts H)).take
        (max 1 ((sort (fun A B => decide (A.2 > B.2)) (collectBinCounts H)).length / 5)))).length / 4 <
      (sort (fun A B => decide (GetBrightness A.1 > GetBrightness B.1))
      ((sort (fun A B => decide (A.2 > B.2)) (collectBinCounts H)).take
        (max 1 ((sort (fun A B => decide (A.2 > B.2)) (collectBinCounts H)).length / 5)))).length := by
    omega
  have hget := List.getElem?_eq_getElem hidx
  refine ⟨_, _, _, p1, s1, p2, s2, hget, ?_⟩
  unfold selectAccent pickAccent
  simp only []
  rw [clamp_fifth, takeTopBins_ok _ _ hm]
  simp only []
  rw [clamp_quarter _ (by omega), arrayAt_natCast _ _ _ hget]

theorem mem_collectBinCounts (H : List Nat) (pair : Nat × Nat) :
    pair ∈ collectBinCounts H ↔
      pair.1 < NumBins ∧ 0 < H.getD pair.1 0 ∧ pair.2 = H.getD pair.1 0 := by
  unfold collectBinCounts
  rw [List.mem_filterMap]
  constructor
  · rintro ⟨i, hi, h⟩
    rw [List.mem_range] at hi
    split at h
    · rename_i hpos
      cases h
      exact ⟨hi, hpos, rfl⟩
    · cases h
  · rintro ⟨h1, h2, h3⟩
    refine ⟨pair.1, List.mem_range.2 h1, ?_⟩
    rw [if_pos h2, ← h3]

theorem range_countP_getD (p : Nat → Bool) :
    ∀ l : List Nat, (List.range l.length).countP (fun i => p (l.getD i 0)) = l.countP p := by
  intro l
  induction l with
  | nil => rfl
  | cons a l ih =>
    rw [List.length_cons, List.range_succ_eq_map, List.countP_cons, List.countP_cons,
      List.countP_map, ← ih]
    rfl

theorem length_collectBinCounts (H : List Nat) (hlen : H.length = NumBins) :
    (collectBinCounts H).length = populated H := by
  unfold collectBinCounts populated
  rw [List.length_filterMap_eq_countP, ← range_countP_getD _ H, hlen]
  apply List.countP_congr
  intro i _
  by_cases h : 0 < H.getD i 0
  · rw [if_pos h]
    simpa using h
  · rw [if_neg h]
    simpa using h

theorem countP_collectBinCounts (H : List Nat) (hlen : H.length = NumBins) (c : Nat) :
    (collectBinCounts H).countP (fun q => decide (c < q.2)) =
      H.countP (fun x => decide (c < x)) := by
  unfold collectBinCounts
  rw [List.countP_filterMap, ← range_countP_getD _ H, hlen]
  apply List.countP_congr
  intro i _
  by_cases h : 0 < H.getD i 0
  · rw [if_pos h]
    simp
  · rw [if_neg h]
    have h0 : H.getD i 0 = 0 := by omega
    rw [h0]
    simp

theorem sorted_take_countP (pair : Nat × Nat) :
    ∀ (bc : List (Nat × Nat)) (m : Nat),
      List.Pairwise (fun A B : Nat × Nat => A.2 ≥ B.2) bc → pair ∈ bc.take m →
      bc.countP (fun q => decide (pair.2 < q.2)) < m := by
  intro bc
  induction bc with
  | nil =>
    intro m _ h
    simp at h
  | cons a rest ih =>
    intro m hs h
    cases m with
    | zero => simp at h
    | succ m =>
      rw [List.take_succ_cons, List.mem_cons] at h
      rw [List.pairwise_cons] at hs
      rw [List.countP_cons]
      rcases h with h | h
      · have hz : rest.countP (fun q => decide (pair.2 < q.2)) = 0 := by
          rw [List.countP_eq_zero]
          intro q hq
          have := hs.1 q hq
          rw [h]
          simp only [decide_eq_true_eq]
          omega
        rw [hz, h]
        simp
      · have := ih m hs.2 h
        split <;> omega

theorem selectAccent_rank (sort : PairSort) (hsort : sort.Sorts) (H : List Nat)
    (hlen : H.length = NumBins) (hpop : 1 ≤ populated H) :
    ∃ k, k < NumBins ∧ 0 < H.getD k 0 ∧ selectAccent sort H = .ok (decodeAccent k) ∧
      strictlyAbove H k < max 1 (populated H / 5) := by
  have hne : collectBinCounts H ≠ [] := by
    intro h
    have := length_collectBinCounts H hlen
    rw [h] at this
    simp at this
    omega
  obtain ⟨bc, top, pair, p1, s1, p2, _, hget, hsel⟩ := selectAccent_spec sort hsort H hne
  have hmem : pair ∈ bc.take (max 1 (bc.length / 5)) :=
    (List.Perm.mem_iff p2).1 (List.getElem?_mem hget)
  obtain ⟨h1, h2, h3⟩ := (mem_collectBinCounts H pair).1
    ((List.Perm.mem_iff p1).1 (List.mem_of_mem_take hmem))
  refine ⟨pair.1, h1, h2, hsel, ?_⟩
  have hc := sorted_take_countP pair bc _ s1 hmem
  rw [List.Perm.countP_eq _ p1, countP_collectBinCounts H hlen, h3, p1.length_eq,
    length_collectBinCounts H hlen] at hc
  exact hc

theorem range_map_getD_eq_enum (l : List Nat) :
    (List.range l.length).map (fun i => (i, l.getD i 0)) = l.enum := by
  apply List.ext_getElem?
  intro n
  rw [List.getElem?_enum, List.getElem?_map]
  by_cases h : n < l.length
  · rw [List.getElem?_range h, List.getElem?_eq_getElem h]
    simp only [Option.map_some', List.getD_eq_getElem l 0 h]
  · rw [List.getElem?_eq_none (by simpa using h), List.getElem?_eq_none (by omega)]
    rfl

theorem collectBinCounts_eq_enum (H : List Nat) (hlen : H.length = NumBins) :
    collectBinCounts H =
      H.enum.filterMap (fun ic => if ic.2 > 0 then some ic else none) := by
  unfold collectBinCounts
  rw [← range_map_getD_eq_enum H, List.filterMap_map, hlen]
  rfl

theorem getD_lt_of_eraseIdx (H : List Nat) (X : Nat) (hX : 0 < H.getD X 0)
    (h : ∀ c ∈ H.eraseIdx X, c < H.getD X 0) :
    ∀ i, i ≠ X → H.getD i 0 < H.getD X 0 := by
  intro i hi
  by_cases hlt : i < H.length
  · apply h
    rw [List.mem_eraseIdx_iff_getElem]
    exact ⟨i, hlt, hi, (List.getD_eq_getElem H 0 hlt).symm⟩
  · rw [List.getD_eq_default H 0 (by omega)]
    exact hX

set_option maxRecDepth 100000 in
theorem collectBinCounts_tenBin :
    collectBinCounts tenBinHistogram =
      [(0, 10), (1, 1), (2, 1), (3, 1), (4, 1), (5, 1), (6, 1), (7, 1), (8, 1), (511, 9)] :=
  (collectBinCounts_eq_enum tenBinHistogram (by decide)).trans (by decide)

theorem selectAccent_tenBin :
    selectAccent insertionSort tenBinHistogram = .ok (decodeAccent 511) :=
  (congrArg (pickAccent insertionSort) collectBinCounts_tenBin).trans (by decide)

/-! ## Claims on the selector and the pipeline -/

theorem sampledCount_uniform (Pixels : List FColor) (S C b : Nat)
    (hN : 1 ≤ Pixels.length) (hC : 1 ≤ C)
    (hall : ∀ c ∈ Pixels, QuantizeColor c = b) :
    0 < sampledCount Pixels S C b ∧ ∀ i, i ≠ b → sampledCount Pixels S C i = 0 := by
  have hbin : ∀ p, p < Pixels.length → binAt Pixels p = some b := by
    intro p hp
    have hget : Pixels[p]? = some Pixels[p] := List.getElem?_eq_getElem hp
    simp only [binAt, hget, Option.map_some']
    rw [hall _ (List.getElem_mem hp)]
  constructor
  · unfold sampledCount
    apply Finset.card_pos.2
    refine ⟨0, Finset.mem_filter.2 ⟨Finset.mem_range.2 ?_, ?_, hbin 0 hN⟩⟩
    · have : 0 < C * max 1 (Pixels.length / C) := Nat.mul_pos hC (by omega)
      omega
    · rw [Nat.zero_mod, Nat.zero_mod]
  · intro i hi
    unfold sampledCount
    rw [Finset.card_eq_zero, Finset.filter_eq_empty_iff]
    intro p hp
    rw [Finset.mem_range] at hp
    rintro ⟨_, h2⟩
    rw [hbin p (by omega)] at h2
    exact hi (Option.some.inj h2).symm

/-- In the range `N + S ≤ 2^31`: for a non-empty buffer all of whose pixels quantise to
bin `b` and `C ≥ 1` tasks, the histogram is built, bin `b` is its only non-zero bin, and
the pipeline returns the decoded colour of `b`, whose alpha is 255 (for any admissible
sort). -/
theorem uniform_buffer_accent_in_range (sort : PairSort) (fuel : Nat) (Pixels : List FColor)
    (S C b : Nat) (hsort : sort.Sorts) (hN : 1 ≤ Pixels.length)
    (hall : ∀ c ∈ Pixels, QuantizeColor c = b) (hS : 1 ≤ S) (hC : 1 ≤ C)
    (hov : Pixels.length + S ≤ 2147483648) (hf : Pixels.length ≤ fuel) :
    ∃ H, buildHistogram fuel Pixels (S : Int) C = .ok H ∧ H.length = 512 ∧
      0 < H.getD b 0 ∧ (∀ i, i ≠ b → H.getD i 0 = 0) ∧
      pipeline sort fuel Pixels (S : Int) C = .ok (decodeAccent b) ∧
      (decodeAccent b).A = 255 := by
  obtain ⟨H, e, hl, g⟩ := buildHistogram_ok fuel Pixels S C hS hf
    (stepsFit_of_bound Pixels S _ C hov)
  obtain ⟨hpos, hzero⟩ := sampledCount_uniform Pixels S C b hN hC hall
  have hb : b < NumBins := by
    rw [← hall _ (List.getElem_mem hN)]
    exact QuantizeColor_lt _
  have hpop : 1 ≤ populated H := by
    unfold populated
    apply List.countP_pos_iff.2
    refine ⟨H.getD b 0, ?_, by rw [g b]; exact decide_eq_true hpos⟩
    rw [List.getD_eq_getElem H 0 (by omega)]
    exact List.getElem_mem _
  obtain ⟨k, _, hk, hsel, _⟩ := selectAccent_rank sort hsort H hl hpop
  have hkb : k = b := by
    by_contra hne
    rw [g k, hzero k hne] at hk
    exact Nat.lt_irrefl 0 hk
  rw [hkb] at hsel
  refine ⟨H, e, hl, by rw [g b]; exact hpos, fun i hi => by rw [g i]; exact hzero i hi, ?_, rfl⟩
  unfold pipeline
  rw [e]
  exact hsel

theorem strictlyAbove_zero (H : List Nat) (k : Nat) (h : strictlyAbove H k = 0) :
    ∀ i, H.getD i 0 ≤ H.getD k 0 := by
  intro i
  unfold strictlyAbove at h
  rw [List.countP_eq_zero] at h
  by_cases hi : i < H.length
  · have := h (H.getD i 0) (by rw [List.getD_eq_getElem H 0 hi]; exact List.getElem_mem _)
    simp only [decide_eq_true_eq] at this
    omega
  · rw [List.getD_eq_default H 0 (by omega)]
    exact Nat.zero_le _

/-- Claim C2: for a histogram with between 2 and 5 populated bins in which bin `X` has a
strictly larger count than every other bin, the selector returns the decoded colour of `X`,
alpha 255, whatever the brightness of the other bins (for any admissible sort). -/
theorem dominant_bin_selected (sort : PairSort) (H : List Nat) (X : Nat)
    (hsort : sort.Sorts) (hlen : H.length = 512) (hn2 : 2 ≤ populated H)
    (hn5 : populated H ≤ 5) (_hX : X < 512)
    (hdom : ∀ i, i < 512 → i ≠ X → H.getD i 0 < H.getD X 0) :
    selectAccent sort H = .ok (decodeAccent X) ∧ (decodeAccent X).A = 255 := by
  obtain ⟨k, hk, _, hsel, hrank⟩ := selectAccent_rank sort hsort H hlen (by omega)
  have hz : strictlyAbove H k = 0 := by omega
  have hkX : k = X := by
    by_contra hne
    have h1 := hdom k hk hne
    have h2 := strictlyAbove_zero H k hz X
    omega
  rw [hkX] at hsel
  exact ⟨hsel, rfl⟩

set_option maxRecDepth 100000 in
theorem dominant_bin_selected_witness :
    (selectAccent insertionSort twoBinHistogram = .ok (decodeAccent 0) ∧
      (decodeAccent 0).A = 255) ∧
    GetBrightness 0 = 0 ∧ GetBrightness 505 = 480 ∧
    twoBinHistogram.getD 0 0 = 80 ∧ twoBinHistogram.getD 505 0 = 20 :=
  ⟨dominant_bin_selected insertionSort twoBinHistogram 0 insertionSort_sorts
    (by decide) (by decide) (by decide) (by decide)
    (fun i _ hne => getD_lt_of_eraseIdx twoBinHistogram 0 (by decide) (by decide) i hne),
   by decide, by decide, by decide, by decide⟩

set_option maxRecDepth 100000 in
/-- Claim C3, the counterexample: the insertion sort is an admissible sort and
`tenBinHistogram` a histogram of 512 counts with ten populated bins, the most frequent being
bin 0 (count 10) and the second most frequent bin 511 (count 9); the selector returns the
decoded colour of bin 511, and no bin of maximum count decodes to the returned colour. -/
theorem most_dominant_counterexample :
    PairSort.Sorts insertionSort ∧ tenBinHistogram.length = 512 ∧
      populated tenBinHistogram = 10 ∧
      selectAccent insertionSort tenBinHistogram = .ok (decodeAccent 511) ∧
      ¬ ∃ k, k < 512 ∧
        (∀ i, i < 512 → tenBinHistogram.getD i 0 ≤ tenBinHistogram.getD k 0) ∧
        selectAccent insertionSort tenBinHistogram = .ok (decodeAccent k) := by
  refine ⟨insertionSort_sorts, by decide, by decide, selectAccent_tenBin, ?_⟩
  rintro ⟨k, hk, hmax, hsel⟩
  rw [selectAccent_tenBin] at hsel
  have hq := congrArg QuantizeColor (Except.ok.inj hsel)
  rw [QuantizeColor_decodeAccent 511 (by decide), QuantizeColor_decodeAccent k hk] at hq
  have h0 := hmax 0 (by decide)
  rw [← hq] at h0
  revert h0
  decide

/-- Claim C3, amended: for a histogram with `n ≥ 1` populated bins the selector returns the
decoded colour of a populated bin `k` such that fewer than `max 1 (n / 5)` bins have a
strictly larger count than `k`; when `n ≤ 9`, bin `k` has the maximum count (for any
admissible sort). -/
theorem accent_among_most_frequent (sort : PairSort) (H : List Nat) (hsort : sort.Sorts)
    (hlen : H.length = 512) (hpop : 1 ≤ populated H) :
    ∃ k, k < 512 ∧ 0 < H.getD k 0 ∧ selectAccent sort H = .ok (decodeAccent k) ∧
      strictlyAbove H k < max 1 (populated H / 5) ∧
      (populated H ≤ 9 → ∀ i, i < 512 → H.getD i 0 ≤ H.getD k 0) := by
  obtain ⟨k, hk, hk0, hsel, hrank⟩ := selectAccent_rank sort hsort H hlen hpop
  refine ⟨k, hk, hk0, hsel, hrank, fun h9 i _ => ?_⟩
  exact strictlyAbove_zero H k (by omega) i

set_option maxRecDepth 100000 in
theorem accent_among_most_frequent_witness :
    ∃ k, k < 512 ∧ 0 < tenBinHistogram.getD k 0 ∧
      selectAccent insertionSort tenBinHistogram = .ok (decodeAccent k) ∧
      strictlyAbove tenBinHistogram k < max 1 (populated tenBinHistogram / 5) ∧
      (populated tenBinHistogram ≤ 9 →
        ∀ i, i < 512 → tenBinHistogram.getD i 0 ≤ tenBinHistogram.getD k 0) :=
  accent_among_most_frequent insertionSort tenBinHistogram insertionSort_sorts
    (by decide) (by decide)

/-! ## Stages of the selector -/

theorem pickAccent_eq (sort : PairSort) (bc0 : List (Nat × Nat)) :
    pickAccent sort bc0 =
      match popularSubset sort bc0 with
      | .ok T0 =>
        match arrayAt (sort (fun A B => decide (GetBrightness A.1 > GetBrightness B.1)) T0)
            (PickIndex (sort (fun A B => decide (GetBrightness A.1 > GetBrightness B.1)) T0)) with
        | .ok pair => .ok (decodeAccent pair.1)
        | .error e => .error e
      | .error e => .error e :=
  rfl

theorem collectBinCounts_ne_nil (H : List Nat) (hlen : H.length = NumBins)
    (hpop : 1 ≤ populated H) : collectBinCounts H ≠ [] := by
  intro h
  have := length_collectBinCounts H hlen
  rw [h] at this
  simp at this
  omega

theorem selectAccent_stages (sort : PairSort) (hsort : sort.Sorts) (H : List Nat)
    (hlen : H.length = NumBins) (hpop : 1 ≤ populated H) :
    ∃ bc T0 top pair,
      bc = sort (fun A B => decide (A.2 > B.2)) (collectBinCounts H) ∧
      List.Perm bc (collectBinCounts H) ∧
      List.Pairwise (fun A B : Nat × Nat => A.2 ≥ B.2) bc ∧
      bc.length = populated H ∧
      NumToConsider bc = ((max 1 (populated H / 5) : Nat) : Int) ∧
      T0 = bc.take (max 1 (populated H / 5)) ∧
      T0.length = max 1 (populated H / 5) ∧
      popularSubset sort (collectBinCounts H) = .ok T0 ∧
      top = sort (fun A B => decide (GetBrightness A.1 > GetBrightness B.1)) T0 ∧
      List.Perm top T0 ∧
      List.Pairwise (fun A B : Nat × Nat => GetBrightness A.1 ≥ GetBrightness B.1) top ∧
      PickIndex top = ((T0.length / 4 : Nat) : Int) ∧
      top[T0.length / 4]? = some pair ∧
      selectAccent sort H = .ok (decodeAccent pair.1) := by
  obtain ⟨p1, s1⟩ := hsort (fun A => A.2) (collectBinCounts H)
  have hn : (sort (fun A B => decide (A.2 > B.2)) (collectBinCounts H)).length =
      populated H := by
    rw [p1.length_eq, length_collectBinCounts H hlen]
  obtain ⟨p2, s2⟩ := hsort (fun A => GetBrightness A.1)
    ((sort (fun A B => decide (A.2 > B.2)) (collectBinCounts H)).take
      (max 1 (populated H / 5)))
  have hm : max 1 (populated H / 5) ≤
      (sort (fun A B => decide (A.2 > B.2)) (collectBinCounts H)).length := by omega
  have hT : ((sort (fun A B => decide (A.2 > B.2)) (collectBinCounts H)).take
      (max 1 (populated H / 5))).length = max 1 (populated H / 5) := by
    rw [List.length_take, Nat.min_eq_left hm]
  have hlen2 := p2.length_eq
  rw [hT] at hlen2
  have hidx : max 1 (populated H / 5) / 4 <
      (sort (fun A B => decide (GetBrightness A.1 > GetBrightness B.1))
        ((sort (fun A B => decide (A.2 > B.2)) (collectBinCounts H)).take
          (max 1 (populated H / 5)))).length := by
    omega
  have hget := List.getElem?_eq_getElem hidx
  have hnum : NumToConsider (sort (fun A B => decide (A.2 > B.2)) (collectBinCounts H)) =
      ((max 1 (populated H / 5) : Nat) : Int) := by
    unfold NumToConsider Clamp truncFifth
    rw [hn]
    split_ifs <;> omega
  have hsub : popularSubset sort (collectBinCounts H) =
      .ok ((sort (fun A B => decide (A.2 > B.2)) (collectBinCounts H)).take
        (max 1 (populated H / 5))) := by
    unfold popularSubset
    simp only []
    rw [hnum, Int.toNat_ofNat, takeTopBins_ok _ _ hm]
  have hpick : PickIndex (sort (fun A B => decide (GetBrightness A.1 > GetBrightness B.1))
      ((sort (fun A B => decide (A.2 > B.2)) (collectBinCounts H)).take
        (max 1 (populated H / 5)))) = ((max 1 (populated H / 5) / 4 : Nat) : Int) := by
    unfold PickIndex
    rw [hlen2]
    exact clamp_quarter _ (by omega)
  obtain ⟨pair, hpair⟩ : ∃ pair,
      (sort (fun A B => decide (GetBrightness A.1 > GetBrightness B.1))
        ((sort (fun A B => decide (A.2 > B.2)) (collectBinCounts H)).take
          (max 1 (populated H / 5))))[max 1 (populated H / 5) / 4]? = some pair := ⟨_, hget⟩
  refine ⟨_, _, _, pair, rfl, p1, s1, hn, hnum, rfl, hT, hsub, rfl, p2, s2, ?_, ?_, ?_⟩
  · rw [hT]
    exact hpick
  · rw [hT]
    exact hpair
  · unfold selectAccent
    rw [pickAccent_eq, hsub]
    simp only []
    rw [hpick, arrayAt_natCast _ _ _ hpair]

theorem sorted_countP_above (key : Nat × Nat → Nat) (pair : Nat × Nat) :
    ∀ (l : List (Nat × Nat)) (j : Nat),
      List.Pairwise (fun A B => key A ≥ key B) l → l[j]? = some pair →
      l.countP (fun q => decide (key pair < key q)) ≤ j := by
  intro l
  induction l with
  | nil =>
    intro j _ h
    simp at h
  | cons a rest ih =>
    intro j hs h
    rw [List.pairwise_cons] at hs
    rw [List.countP_cons]
    cases j with
    | zero =>
      have ha : a = pair := by simpa using h
      have hz : rest.countP (fun q => decide (key pair < key q)) = 0 := by
        rw [List.countP_eq_zero]
        intro q hq
        have := hs.1 q hq
        rw [ha] at this
        simp only [decide_eq_true_eq]
        omega
      rw [hz, ha]
      simp
    | succ j =>
      have h1 : rest[j]? = some pair := by simpa using h
      have := ih j hs.2 h1
      split <;> omega

theorem sorted_countP_below (key : Nat × Nat → Nat) (pair : Nat × Nat) :
    ∀ (l : List (Nat × Nat)) (j : Nat),
      List.Pairwise (fun A B => key A ≥ key B) l → l[j]? = some pair →
      l.countP (fun q => decide (key q < key pair)) + (j + 1) ≤ l.length := by
  intro l
  induction l with
  | nil =>
    intro j _ h
    simp at h
  | cons a rest ih =>
    intro j hs h
    rw [List.pairwise_cons] at hs
    rw [List.countP_cons, List.length_cons]
    cases j with
    | zero =>
      have ha : a = pair := by simpa using h
      have hle := List.countP_le_length (fun q => decide (key q < key pair)) (l := rest)
      rw [ha]
      simp only [Nat.lt_irrefl, decide_False, Bool.false_eq_true, if_false]
      omega
    | succ j =>
      have h1 : rest[j]? = some pair := by simpa using h
      have h2 := ih j hs.2 h1
      have h3 := hs.1 pair (List.getElem?_mem h1)
      have h4 : ¬ key a < key pair := by omega
      simp only [h4, decide_False, Bool.false_eq_true, if_false]
      omega

theorem GetBrightness_eq (b : Nat) (hb : b < 512) :
    GetBrightness b =
      (decodeAccent b).R.val + (decodeAccent b).G.val + (decodeAccent b).B.val := by
  obtain ⟨hR, hG, hB, _⟩ := decodeAccent_val b hb
  obtain ⟨h1, h2, h3⟩ := decode_eq_aux b hb
  rw [hR, hG, hB]
  unfold GetBrightness
  simp only [h1, h2, h3]

set_option maxRecDepth 100000 in
theorem collectBinCounts_sixBin :
    collectBinCounts sixBinHistogram = [(0, 6), (1, 5), (2, 4), (3, 3), (4, 2), (5, 1)] :=
  (collectBinCounts_eq_enum sixBinHistogram (by decide)).trans (by decide)

/-! ## Claims on the popular colours subset -/

set_option maxRecDepth 100000 in
/-- Claim C11, the counterexample: `sixBinHistogram` is a histogram of 512 counts with six
populated bins; the popular colours subset computed from it (with the insertion sort, an
admissible sort) has one element, whereas `min 6 (max 1 ⌈6 * 0.2⌉)` is 2. -/
theorem popular_subset_size_counterexample :
    PairSort.Sorts insertionSort ∧ sixBinHistogram.length = 512 ∧
      populated sixBinHistogram = 6 ∧
      (popularSubset insertionSort (collectBinCounts sixBinHistogram)).map List.length =
        .ok 1 ∧
      min 6 (max 1 ⌈(6 : ℚ) * (2 / 10)⌉₊) = 2 := by
  refine ⟨insertionSort_sorts, by decide, by decide, ?_, ?_⟩
  · rw [collectBinCounts_sixBin]
    decide
  · have h : ⌈(6 : ℚ) * (2 / 10)⌉₊ = 2 := by
      rw [Nat.ceil_eq_iff (by decide)]
      constructor <;> norm_num
    rw [h]
    rfl

/-- Claim C11, amended: for a histogram with `n ≥ 1` populated bins the popular colours
subset is built without fault and has exactly `min n (max 1 (n / 5))` elements, `n / 5`
being the integer quotient `⌊n * 0.2⌋`; this number is `max 1 (n / 5)` (for any admissible
sort). -/
theorem popular_subset_size (sort : PairSort) (H : List Nat) (hsort : sort.Sorts)
    (hlen : H.length = 512) (hpop : 1 ≤ populated H) :
    ∃ T0, popularSubset sort (collectBinCounts H) = .ok T0 ∧
      T0.length = min (populated H) (max 1 (populated H / 5)) ∧
      T0.length = max 1 (populated H / 5) ∧
      ⌊(populated H : ℚ) * (2 / 10)⌋₊ = populated H / 5 := by
  obtain ⟨bc, T0, top, pair, _, _, _, _, _, _, hT, hsub, _⟩ :=
    selectAccent_stages sort hsort H hlen hpop
  refine ⟨T0, hsub, by omega, hT, ?_⟩
  have e : (populated H : ℚ) * (2 / 10) = (populated H : ℚ) / ((5 : ℕ) : ℚ) := by
    push_cast
    ring
  rw [e, Nat.floor_div_eq_div]

set_option maxRecDepth 100000 in
theorem popular_subset_size_witness :
    ∃ T0, popularSubset insertionSort (collectBinCounts sixBinHistogram) = .ok T0 ∧
      T0.length = min (populated sixBinHistogram) (max 1 (populated sixBinHistogram / 5)) ∧
      T0.length = max 1 (populated sixBinHistogram / 5) ∧
      ⌊(populated sixBinHistogram : ℚ) * (2 / 10)⌋₊ = populated sixBinHistogram / 5 :=
  popular_subset_size insertionSort sixBinHistogram insertionSort_sorts (by decide) (by decide)

/-- Claim C12: for a histogram with at least one populated bin, with `k` the size of the
popular colours subset `T0` and `top` the subset sorted by descending brightness, the
selector returns the decoded colour (alpha 255) of the element of `top` at index
`min (k / 4) (k - 1)`; its brightness is the sum of its decoded channels; at most `k / 4`
elements of the subset are strictly brighter and at most `k - 1 - k / 4` strictly dimmer
(for any admissible sort). -/
theorem pick_at_quarter_of_brightness_rank (sort : PairSort) (H : List Nat)
    (hsort : sort.Sorts) (hlen : H.length = 512) (hpop : 1 ≤ populated H) :
    ∃ T0 top pair,
      popularSubset sort (collectBinCounts H) = .ok T0 ∧
      top = sort (fun A B => decide (GetBrightness A.1 > GetBrightness B.1)) T0 ∧
      List.Perm top T0 ∧
      List.Pairwise (fun A B : Nat × Nat => GetBrightness A.1 ≥ GetBrightness B.1) top ∧
      top[min (T0.length / 4) (T0.length - 1)]? = some pair ∧
      selectAccent sort H = .ok (decodeAccent pair.1) ∧
      (decodeAccent pair.1).A = 255 ∧
      GetBrightness pair.1 = (decodeAccent pair.1).R.val + (decodeAccent pair.1).G.val +
        (decodeAccent pair.1).B.val ∧
      T0.countP (fun q => decide (GetBrightness pair.1 < GetBrightness q.1)) ≤
        T0.length / 4 ∧
      T0.countP (fun q => decide (GetBrightness q.1 < GetBrightness pair.1)) ≤
        T0.length - 1 - T0.length / 4 := by
  obtain ⟨bc, T0, top, pair, _, p1, _, _, _, hT0, hT, hsub, htop, p2, s2, _, hget, hsel⟩ :=
    selectAccent_stages sort hsort H hlen hpop
  have hmin : min (T0.length / 4) (T0.length - 1) = T0.length / 4 := by omega
  have hmem : pair ∈ collectBinCounts H := by
    apply (List.Perm.mem_iff p1).1
    have h1 : pair ∈ T0 := (List.Perm.mem_iff p2).1 (List.getElem?_mem hget)
    rw [hT0] at h1
    exact List.mem_of_mem_take h1
  have hlt : pair.1 < 512 := ((mem_collectBinCounts H pair).1 hmem).1
  have ha := sorted_countP_above (fun A => GetBrightness A.1) pair top _ s2 hget
  have hb := sorted_countP_below (fun A => GetBrightness A.1) pair top _ s2 hget
  rw [List.Perm.countP_eq _ p2] at ha hb
  rw [p2.length_eq] at hb
  beta_reduce at ha hb
  refine ⟨T0, top, pair, hsub, htop, p2, s2, by rw [hmin]; exact hget, hsel, rfl,
    GetBrightness_eq pair.1 hlt, ha, by omega⟩

set_option maxRecDepth 100000 in
theorem pick_at_quarter_of_brightness_rank_witness :
    ∃ T0 top pair,
      popularSubset insertionSort (collectBinCounts tenBinHistogram) = .ok T0 ∧
      top = insertionSort (fun A B => decide (GetBrightness A.1 > GetBrightness B.1)) T0 ∧
      List.Perm top T0 ∧
      List.Pairwise (fun A B : Nat × Nat => GetBrightness A.1 ≥ GetBrightness B.1) top ∧
      top[min (T0.length / 4) (T0.length - 1)]? = some pair ∧
      selectAccent insertionSort tenBinHistogram = .ok (decodeAccent pair.1) ∧
      (decodeAccent pair.1).A = 255 ∧
      GetBrightness pair.1 = (decodeAccent pair.1).R.val + (decodeAccent pair.1).G.val +
        (decodeAccent pair.1).B.val ∧
      T0.countP (fun q => decide (GetBrightness pair.1 < GetBrightness q.1)) ≤
        T0.length / 4 ∧
      T0.countP (fun q => decide (GetBrightness q.1 < GetBrightness pair.1)) ≤
        T0.length - 1 - T0.length / 4 :=
  pick_at_quarter_of_brightness_rank insertionSort tenBinHistogram insertionSort_sorts
    (by decide) (by decide)

theorem pipeline_of_build (sort : PairSort) (fuel : Nat) (Pixels : List FColor) (D : Int)
    (C : Nat) (H : List Nat) (h : buildHistogram fuel Pixels D C = .ok H) :
    pipeline sort fuel Pixels D C = selectAccent sort H := by
  unfold pipeline
  rw [h]

set_option maxRecDepth 100000 in
theorem buildHistogram_empty : buildHistogram 0 [] 1 1 = .ok (List.replicate 512 0) := by
  decide

set_option maxRecDepth 100000 in
theorem collectBinCounts_zero : collectBinCounts (List.replicate 512 0) = [] :=
  (collectBinCounts_eq_enum (List.replicate 512 0) (by decide)).trans (by decide)

theorem selectAccent_zero :
    selectAccent insertionSort (List.replicate 512 0) = .error .indexOutOfRange :=
  (congrArg (pickAccent insertionSort) collectBinCounts_zero).trans (by decide)

/-- Claim C13, the code on the degenerate inputs: the empty buffer gives the all-zero
histogram; for the all-zero histogram `BinCounts` is empty, `NumToConsider` is 1, and the
copy loop reads `BinCounts[0]`, an access outside the array; no guard reports an error
before it. -/
theorem degenerate_input_unguarded :
    buildHistogram 0 [] 1 1 = .ok (List.replicate 512 0) ∧
      collectBinCounts (List.replicate 512 0) = [] ∧
      NumToConsider (insertionSort (fun A B => decide (A.2 > B.2)) []) = 1 ∧
      takeTopBins [] 1 = .error .indexOutOfRange ∧
      selectAccent insertionSort (List.replicate 512 0) = .error .indexOutOfRange ∧
      pipeline insertionSort 0 [] 1 1 = .error .indexOutOfRange :=
  ⟨buildHistogram_empty, collectBinCounts_zero, by decide, by decide, selectAccent_zero,
    (pipeline_of_build insertionSort 0 [] 1 1 _ buildHistogram_empty).trans selectAccent_zero⟩

theorem sampleChunk_zero_stride (Pixels : List FColor) (hi : Nat) (hlo : 1 ≤ hi)
    (hhi : hi ≤ Pixels.length) :
    ∀ (fuel : Nat) (h : List Nat),
      sampleChunk Pixels 0 (hi : Int) fuel 0 h = .error .outOfFuel := by
  intro fuel
  have hp : (0 : Int) < (hi : Int) := by omega
  have hget : Pixels[0]? = some Pixels[0] := List.getElem?_eq_getElem (by omega)
  induction fuel with
  | zero =>
    intro h
    rw [sampleChunk, if_pos hp]
  | succ fuel ih =>
    intro h
    rw [sampleChunk, if_pos hp]
    have ha : arrayAt Pixels (0 : Int) = .ok Pixels[0] := arrayAt_natCast Pixels 0 _ hget
    have hadv : advance Pixels 0 0 = 0 := by
      unfold advance indexMax
      rw [if_pos (by omega)]
      rfl
    rw [ha]
    simp only []
    rw [hadv]
    exact ih _

theorem sampleChunk_negative_stride (Pixels : List FColor) (hi d : Nat) (hlo : 1 ≤ hi)
    (hhi : hi ≤ Pixels.length) (fuel : Nat) (h : List Nat) :
    sampleChunk Pixels (-((d : Int) + 1)) (hi : Int) (fuel + 2) 0 h =
      .error .indexOutOfRange := by
  have hp : (0 : Int) < (hi : Int) := by omega
  have hget : Pixels[0]? = some Pixels[0] := List.getElem?_eq_getElem (by omega)
  have ha : arrayAt Pixels (0 : Int) = .ok Pixels[0] := arrayAt_natCast Pixels 0 _ hget
  have hn : (0 : Int) + -((d : Int) + 1) < (hi : Int) := by omega
  have hneg : (0 : Int) + -((d : Int) + 1) < 0 := by omega
  have hadv : advance Pixels 0 (-((d : Int) + 1)) = (0 : Int) + -((d : Int) + 1) := by
    unfold advance indexMax
    rw [if_pos (by omega)]
  rw [sampleChunk, if_pos hp, ha]
  simp only []
  rw [hadv, sampleChunk, if_pos hn]
  have hb : arrayAt Pixels ((0 : Int) + -((d : Int) + 1)) = .error .indexOutOfRange := by
    unfold arrayAt
    rw [if_pos hneg]
  rw [hb]

theorem parallelFor_first_task_error (Pixels : List FColor) (D : Int) (cs fuel : Nat)
    (H : List Nat) (e : Fault)
    (h : ∀ h0, sampleChunk Pixels D ((min Pixels.length (cs * (0 + 1)) : Nat) : Int) fuel
      ((cs * 0 : Nat) : Int) h0 = .error e) :
    ∀ n : Nat, parallelFor Pixels D cs fuel (n + 1) H = .error e := by
  intro n
  induction n with
  | zero =>
    rw [parallelFor, parallelFor]
    simp only []
    unfold taskBody
    rw [h]
  | succ n ih =>
    rw [parallelFor, ih]

theorem first_chunk_bounds (N C : Nat) (hN : 1 ≤ N) :
    1 ≤ min N (max 1 (N / C) * (0 + 1)) ∧ min N (max 1 (N / C) * (0 + 1)) ≤ N ∧
      max 1 (N / C) * 0 = 0 := by
  refine ⟨?_, Nat.min_le_left _ _, Nat.mul_zero _⟩
  rw [Nat.zero_add, Nat.mul_one]
  omega

set_option maxRecDepth 100000 in
/-- Claim C14, the code at non-positive downsample factors: for every non-empty buffer and
every number of tasks `C + 1`, with factor 0 the histogram construction runs out of any
fuel (the sampling loop of task 0 stays at index 0), with a negative factor it reads
`Pixels` at a negative index as soon as the fuel allows two iterations; with factor 1 a
histogram is returned. The factor is used as it is, not clamped. -/
theorem nonpositive_factor_not_clamped :
    (∀ (fuel : Nat) (c : FColor) (rest : List FColor) (C : Nat),
      buildHistogram fuel (c :: rest) 0 (C + 1) = .error .outOfFuel) ∧
    (∀ (fuel : Nat) (c : FColor) (rest : List FColor) (C d : Nat),
      buildHistogram (fuel + 2) (c :: rest) (-((d : Int) + 1)) (C + 1) =
        .error .indexOutOfRange) ∧
    (buildHistogram 1 [⟨0, 0, 0, 255⟩] 1 1).map (fun H => H.getD 0 0) = .ok 1 := by
  refine ⟨?_, ?_, by decide⟩
  · intro fuel c rest C
    obtain ⟨h1, h2, h3⟩ := first_chunk_bounds (c :: rest).length (C + 1) (by simp)
    unfold buildHistogram
    apply parallelFor_first_task_error
    intro h0
    rw [h3]
    exact sampleChunk_zero_stride (c :: rest) _ h1 h2 fuel h0
  · intro fuel c rest C d
    obtain ⟨h1, h2, h3⟩ := first_chunk_bounds (c :: rest).length (C + 1) (by simp)
    unfold buildHistogram
    apply parallelFor_first_task_error
    intro h0
    rw [h3]
    exact sampleChunk_negative_stride (c :: rest) _ d h1 h2 fuel h0

/-! ## Merge order -/

theorem syncHistogram_eq_add (H L : List Nat) :
    syncHistogram H L = List.zipWith (fun g l => g + l) H L := by
  unfold syncHistogram
  congr 1
  funext g l
  split
  · rfl
  · omega

theorem syncHistogram_right_comm :
    ∀ H L1 L2 : List Nat,
      syncHistogram (syncHistogram H L1) L2 = syncHistogram (syncHistogram H L2) L1 := by
  intro H L1 L2
  simp only [syncHistogram_eq_add]
  induction H generalizing L1 L2 with
  | nil => simp
  | cons a H ih =>
    cases L1 with
    | nil => cases L2 <;> simp
    | cons b L1 =>
      cases L2 with
      | nil => simp
      | cons c L2 =>
        simp only [List.zipWith_cons_cons, ih L1 L2, Nat.add_right_comm a b c]

theorem mergeAll_eq_add (ls : List (List Nat)) :
    mergeAll ls = ls.foldl (List.zipWith (fun g l => g + l)) (List.replicate NumBins 0) := by
  unfold mergeAll
  congr 1
  funext H L
  exact syncHistogram_eq_add H L

theorem parallelFor_eq_foldl (Pixels : List FColor) (D : Int) (cs fuel : Nat)
    (L : Nat → List Nat) (H : List Nat) :
    ∀ Tasks : Nat, (∀ i, i < Tasks → localHistogram Pixels D cs fuel i = .ok (L i)) →
      parallelFor Pixels D cs fuel Tasks H =
        .ok (((List.range Tasks).map L).foldl syncHistogram H) := by
  intro Tasks
  induction Tasks with
  | zero =>
    intro _
    rfl
  | succ n ih =>
    intro h
    have hn := h n (Nat.lt_succ_self n)
    unfold localHistogram at hn
    rw [parallelFor, ih (fun i hi => h i (Nat.lt_succ_of_lt hi))]
    simp only []
    unfold taskBody
    rw [hn, List.range_succ, List.map_append, List.foldl_append]
    rfl

/-- Claim C15: for two lists of local histograms that are permutations of one another,
merging each into the all-zero global histogram gives the same global histogram, hence the
same result of the selector; the merge, which skips the zero local counts, equals the plain
counter-by-counter sum; and the `ParallelFor` returns this merge of the local histograms of
its tasks. -/
theorem merge_order_independent (ls1 ls2 : List (List Nat)) (hperm : List.Perm ls1 ls2) :
    mergeAll ls1 = mergeAll ls2 ∧
      (∀ sort : PairSort, selectAccent sort (mergeAll ls1) = selectAccent sort (mergeAll ls2)) ∧
      mergeAll ls1 =
        ls1.foldl (List.zipWith (fun g l => g + l)) (List.replicate 512 0) ∧
      ∀ (Pixels : List FColor) (D : Int) (cs fuel Tasks : Nat) (L : Nat → List Nat),
        (∀ i, i < Tasks → localHistogram Pixels D cs fuel i = .ok (L i)) →
        parallelFor Pixels D cs fuel Tasks (List.replicate 512 0) =
          .ok (mergeAll ((List.range Tasks).map L)) := by
  have h : mergeAll ls1 = mergeAll ls2 :=
    List.Perm.foldl_eq' hperm (fun x _ y _ z => syncHistogram_right_comm z x y) _
  exact ⟨h, fun sort => by rw [h], mergeAll_eq_add ls1,
    fun Pixels D cs fuel Tasks L hL => parallelFor_eq_foldl Pixels D cs fuel L _ Tasks hL⟩

theorem merge_order_independent_witness :
    mergeAll [List.replicate 512 1, 2 :: List.replicate 511 0] =
        mergeAll [2 :: List.replicate 511 0, List.replicate 512 1] ∧
      (∀ sort : PairSort,
        selectAccent sort (mergeAll [List.replicate 512 1, 2 :: List.replicate 511 0]) =
          selectAccent sort (mergeAll [2 :: List.replicate 511 0, List.replicate 512 1])) ∧
      mergeAll [List.replicate 512 1, 2 :: List.replicate 511 0] =
        [List.replicate 512 1, 2 :: List.replicate 511 0].foldl
          (List.zipWith (fun g l => g + l)) (List.replicate 512 0) ∧
      ∀ (Pixels : List FColor) (D : Int) (cs fuel Tasks : Nat) (L : Nat → List Nat),
        (∀ i, i < Tasks → localHistogram Pixels D cs fuel i = .ok (L i)) →
        parallelFor Pixels D cs fuel Tasks (List.replicate 512 0) =
          .ok (mergeAll ((List.range Tasks).map L)) :=
  merge_order_independent [List.replicate 512 1, 2 :: List.replicate 511 0]
    [2 :: List.replicate 511 0, List.replicate 512 1] (List.Perm.swap _ _ _)

/-! ## Number of tasks -/

/-- Claim C17, the counterexample: with 5 available workers the code uses 3 tasks, whereas
`0.75 * 5 = 3.75` rounds to 4. -/
theorem num_tasks_round_counterexample :
    numTasks 5 = 3 ∧ round ((3 / 4 : ℚ) * 5) = 4 ∧
      (numTasks 5 : Int) ≠ max 1 (round ((3 / 4 : ℚ) * 5)) := by
  have h : round ((3 / 4 : ℚ) * 5) = 4 := by
    rw [round_eq, Int.floor_eq_iff]
    constructor <;> norm_num
  refine ⟨by decide, h, ?_⟩
  rw [h]
  decide

theorem roundTo24_small (X : Nat) (h : X < 16777216) : roundTo24 X = X := by
  have hs : excessBits 64 X = 0 := by
    rw [excessBits, if_pos h]
  unfold roundTo24
  simp only [hs, Nat.pow_zero, Nat.div_one, Nat.mod_one, Nat.mul_zero, Nat.mul_one]
  rfl

theorem numTasks_exact (n : Nat) (hn : n ≤ 5592408) : numTasks n = max 1 (n * 3 / 4) := by
  by_cases h : 3 * n < 16777216
  · unfold numTasks
    rw [roundTo24_small n (by omega), roundTo24_small (3 * n) h, Nat.mul_comm 3 n]
  · have h3 : n = 5592406 ∨ n = 5592407 ∨ n = 5592408 := by omega
    rcases h3 with h3 | h3 | h3 <;> subst h3 <;> decide

/-- With 5592409 workers the `float` product `0.75f * n` is rounded up to 4194307, above
`⌊0.75 * n⌋ = 4194306`: the first count at which the product is not exact enough. -/
theorem numTasks_rounds_up : numTasks 5592409 = 4194307 ∧ 5592409 * 3 / 4 = 4194306 := by
  decide

/-- Claim C17, amended: for every number `n ≤ 5592408` of available workers the number of
tasks is `max 1 ⌊0.75 * n⌋`, and `OnPixelsReady` runs the pipeline with that many tasks. -/
theorem num_tasks_floor (n : Nat) (hn : n ≤ 5592408) :
    numTasks n = max 1 ⌊(3 / 4 : ℚ) * n⌋₊ ∧
      ∀ (sort : PairSort) (D : Int) (fuel : Nat) (Pixels : List FColor),
        OnPixelsReady sort n D fuel Pixels =
          pipeline sort fuel Pixels D (max 1 ⌊(3 / 4 : ℚ) * n⌋₊) := by
  have e : (3 / 4 : ℚ) * n = ((n * 3 : ℕ) : ℚ) / ((4 : ℕ) : ℚ) := by
    push_cast
    ring
  have h : numTasks n = max 1 ⌊(3 / 4 : ℚ) * n⌋₊ := by
    rw [e, Nat.floor_div_eq_div]
    exact numTasks_exact n hn
  refine ⟨h, fun sort D fuel Pixels => ?_⟩
  unfold OnPixelsReady
  rw [h]

theorem num_tasks_floor_witness :
    numTasks 8 = max 1 ⌊(3 / 4 : ℚ) * (8 : ℕ)⌋₊ ∧
      ∀ (sort : PairSort) (D : Int) (fuel : Nat) (Pixels : List FColor),
        OnPixelsReady sort 8 D fuel Pixels =
          pipeline sort fuel Pixels D (max 1 ⌊(3 / 4 : ℚ) * (8 : ℕ)⌋₊) :=
  num_tasks_floor 8 (by decide)

/-! ## Sampled pixels and bounds -/

theorem populated_pos_of_getD (H : List Nat) (b : Nat) (h : 0 < H.getD b 0) :
    1 ≤ populated H := by
  unfold populated
  apply List.countP_pos_iff.2
  have hb : b < H.length := by
    by_contra hc
    rw [List.getD_eq_default H 0 (by omega)] at h
    exact Nat.lt_irrefl 0 h
  refine ⟨H.getD b 0, ?_, decide_eq_true h⟩
  rw [List.getD_eq_getElem H 0 hb]
  exact List.getElem_mem _

theorem sampledCount_first (Pixels : List FColor) (S C : Nat) (hN : 1 ≤ Pixels.length)
    (hC : 1 ≤ C) : 0 < sampledCount Pixels S C (QuantizeColor Pixels[0]) := by
  unfold sampledCount
  apply Finset.card_pos.2
  refine ⟨0, Finset.mem_filter.2 ⟨Finset.mem_range.2 ?_, ?_, ?_⟩⟩
  · have : 0 < C * max 1 (Pixels.length / C) := Nat.mul_pos hC (by omega)
    omega
  · rw [Nat.zero_mod, Nat.zero_mod]
  · simp [binAt, List.getElem?_eq_getElem hN]

theorem sampledCount_pos (Pixels : List FColor) (S C k : Nat)
    (h : 0 < sampledCount Pixels S C k) :
    ∃ p c, p < min Pixels.length (C * max 1 (Pixels.length / C)) ∧
      (p % max 1 (Pixels.length / C)) % S = 0 ∧ Pixels[p]? = some c ∧
      QuantizeColor c = k := by
  unfold sampledCount at h
  obtain ⟨p, hp⟩ := Finset.card_pos.1 h
  rw [Finset.mem_filter, Finset.mem_range] at hp
  obtain ⟨h1, h2, h3⟩ := hp
  unfold binAt at h3
  cases hc : Pixels[p]? with
  | none =>
    rw [hc] at h3
    cases h3
  | some c =>
    rw [hc] at h3
    exact ⟨p, c, h1, h2, hc, Option.some.inj h3⟩

/-- In the range `N + S ≤ 2^31`: for a non-empty buffer and `C ≥ 1` tasks the pipeline
returns a colour, and there is a sampled index `p` (one with `p < min N (C * cs)` and
`(p mod cs) mod S = 0`, `cs = max 1 (N / C)`) such that the colour is the decoded bin of
`Pixels[p]`, with alpha 255; that bin is populated in the histogram (for any admissible
sort). -/
theorem accent_is_sampled_bin_in_range (sort : PairSort) (fuel : Nat) (Pixels : List FColor)
    (S C : Nat) (hsort : sort.Sorts) (hN : 1 ≤ Pixels.length) (hS : 1 ≤ S) (hC : 1 ≤ C)
    (hov : Pixels.length + S ≤ 2147483648) (hf : Pixels.length ≤ fuel) :
    ∃ p c H, p < min Pixels.length (C * max 1 (Pixels.length / C)) ∧
      (p % max 1 (Pixels.length / C)) % S = 0 ∧ Pixels[p]? = some c ∧
      buildHistogram fuel Pixels (S : Int) C = .ok H ∧ 0 < H.getD (QuantizeColor c) 0 ∧
      pipeline sort fuel Pixels (S : Int) C = .ok (decodeAccent (QuantizeColor c)) ∧
      (decodeAccent (QuantizeColor c)).A = 255 := by
  obtain ⟨H, e, hl, g⟩ := buildHistogram_ok fuel Pixels S C hS hf
    (stepsFit_of_bound Pixels S _ C hov)
  have h0 : 0 < H.getD (QuantizeColor Pixels[0]) 0 := by
    rw [g]
    exact sampledCount_first Pixels S C hN hC
  obtain ⟨k, _, hk, hsel, _⟩ :=
    selectAccent_rank sort hsort H hl (populated_pos_of_getD H _ h0)
  obtain ⟨p, c, h1, h2, h3, h4⟩ := sampledCount_pos Pixels S C k (by rw [← g]; exact hk)
  refine ⟨p, c, H, h1, h2, h3, e, by rw [h4]; exact hk, ?_, rfl⟩
  rw [pipeline_of_build sort fuel Pixels S C H e, h4]
  exact hsel

/-- In the range `N + S ≤ 2^31`: for a non-empty buffer and `C ≥ 1` tasks the histogram is
built and the bin of `Pixels[0]` is non-zero in it, so it has a populated bin; and for every
histogram with a populated bin, `1 ≤ NumToConsider ≤ BinCounts.Num()`, the copy loop ends
without fault, `0 ≤ PickIndex < TopBins.Num()`, and the selector returns a colour (for any
admissible sort). -/
theorem selector_accesses_in_range (sort : PairSort) (fuel : Nat) (Pixels : List FColor)
    (S C : Nat) (hsort : sort.Sorts) (hN : 1 ≤ Pixels.length) (hS : 1 ≤ S) (hC : 1 ≤ C)
    (hov : Pixels.length + S ≤ 2147483648) (hf : Pixels.length ≤ fuel) :
    (∃ c H, Pixels[0]? = some c ∧ buildHistogram fuel Pixels (S : Int) C = .ok H ∧
      H.length = 512 ∧ 0 < H.getD (QuantizeColor c) 0 ∧ 1 ≤ populated H) ∧
    ∀ H : List Nat, H.length = 512 → 1 ≤ populated H →
      1 ≤ NumToConsider (sort (fun A B => decide (A.2 > B.2)) (collectBinCounts H)) ∧
      NumToConsider (sort (fun A B => decide (A.2 > B.2)) (collectBinCounts H)) ≤
        ((sort (fun A B => decide (A.2 > B.2)) (collectBinCounts H)).length : Int) ∧
      ∃ T0, popularSubset sort (collectBinCounts H) = .ok T0 ∧
        0 ≤ PickIndex
          (sort (fun A B => decide (GetBrightness A.1 > GetBrightness B.1)) T0) ∧
        PickIndex (sort (fun A B => decide (GetBrightness A.1 > GetBrightness B.1)) T0) <
          ((sort (fun A B => decide (GetBrightness A.1 > GetBrightness B.1)) T0).length :
            Int) ∧
        ∃ color, selectAccent sort H = .ok color := by
  constructor
  · obtain ⟨H, e, hl, g⟩ := buildHistogram_ok fuel Pixels S C hS hf
      (stepsFit_of_bound Pixels S _ C hov)
    have h0 : 0 < H.getD (QuantizeColor Pixels[0]) 0 := by
      rw [g]
      exact sampledCount_first Pixels S C hN hC
    exact ⟨Pixels[0], H, List.getElem?_eq_getElem hN, e, hl, h0,
      populated_pos_of_getD H _ h0⟩
  · intro H hlen hpop
    obtain ⟨bc, T0, top, pair, hbc, _, _, hn, hnum, _, hT, hsub, htop, p2, _, hpick, _, hsel⟩ :=
      selectAccent_stages sort hsort H hlen hpop
    subst hbc htop
    have hl2 := p2.length_eq
    refine ⟨by rw [hnum]; omega, by rw [hnum, hn]; omega, T0, hsub, ?_, ?_, _, hsel⟩
    · rw [hpick]
      omega
    · rw [hpick, hl2]
      omega

/-! ## Saturation of the stride -/

theorem sampledCount_saturated (Pixels : List FColor) (S C b : Nat)
    (hS : max 1 (Pixels.length / C) ≤ S) :
    sampledCount Pixels S C b =
      ((Finset.range (min Pixels.length (C * max 1 (Pixels.length / C)))).filter
        (fun p => p % max 1 (Pixels.length / C) = 0 ∧ binAt Pixels p = some b)).card := by
  unfold sampledCount
  congr 1
  apply Finset.filter_congr
  intro p _
  have h1 : p % max 1 (Pixels.length / C) < max 1 (Pixels.length / C) :=
    Nat.mod_lt _ (by omega)
  rw [Nat.mod_eq_of_lt (Nat.lt_of_lt_of_le h1 hS)]

theorem saturated_terms (N C S : Nat) (hC : 1 ≤ C)
    (hS : max 1 (N / C) ≤ S) :
    ∀ i, i < C →
      (min N (max 1 (N / C) * (i + 1)) - max 1 (N / C) * i + S - 1) / S =
        if i < N then 1 else 0 := by
  intro i hi
  have hmul : max 1 (N / C) * (i + 1) = max 1 (N / C) * i + max 1 (N / C) := Nat.mul_succ _ _
  by_cases hCN : C ≤ N
  · have hq : 1 ≤ N / C := (Nat.one_le_div_iff (by omega)).2 hCN
    have hcs : max 1 (N / C) = N / C := by omega
    have h1 : N / C * (i + 1) ≤ N / C * C := Nat.mul_le_mul_left _ hi
    have h2 : N / C * C ≤ N := Nat.div_mul_le_self N C
    rw [hcs] at hmul hS ⊢
    rw [if_pos (by omega)]
    exact Nat.div_eq_of_lt_le (by omega) (by omega)
  · have hq : N / C = 0 := Nat.div_eq_of_lt (by omega)
    have hcs : max 1 (N / C) = 1 := by omega
    rw [hcs] at hS ⊢
    rw [Nat.one_mul, Nat.one_mul]
    by_cases hiN : i < N
    · rw [if_pos hiN]
      exact Nat.div_eq_of_lt_le (by omega) (by omega)
    · rw [if_neg hiN]
      exact Nat.div_eq_of_lt (by omega)

theorem sum_indicator_lt (N C : Nat) :
    (∑ i in Finset.range C, if i < N then 1 else 0) = min N C := by
  induction C with
  | zero => simp
  | succ n ih =>
    rw [Finset.sum_range_succ, ih]
    split <;> omega

/-- In the range `N + S ≤ 2^31`: for `C ≥ 1` tasks, with `cs = max 1 (N / C)`, two strides
`S1, S2 ≥ cs` give the same histogram (given fuel `N`), and the sum of its 512 counts is
`min N C`. -/
theorem stride_saturation_in_range (fuel : Nat) (Pixels : List FColor) (S1 S2 C : Nat)
    (hC : 1 ≤ C)
    (h1 : max 1 (Pixels.length / C) ≤ S1) (h2 : max 1 (Pixels.length / C) ≤ S2)
    (hov1 : Pixels.length + S1 ≤ 2147483648) (hov2 : Pixels.length + S2 ≤ 2147483648)
    (hf : Pixels.length ≤ fuel) :
    ∃ H, buildHistogram fuel Pixels (S1 : Int) C = .ok H ∧
      buildHistogram fuel Pixels (S2 : Int) C = .ok H ∧ H.length = 512 ∧
      H.sum = min Pixels.length C := by
  obtain ⟨H1, e1, l1, g1⟩ := buildHistogram_ok fuel Pixels S1 C (by omega) hf
    (stepsFit_of_bound Pixels S1 _ C hov1)
  obtain ⟨H2, e2, l2, g2⟩ := buildHistogram_ok fuel Pixels S2 C (by omega) hf
    (stepsFit_of_bound Pixels S2 _ C hov2)
  obtain ⟨H3, e3, _, g3⟩ := buildHistogram_sum fuel Pixels S1 C (by omega) hf
    (stepsFit_of_bound Pixels S1 _ C hov1)
  have hEq : H2 = H1 := by
    apply ext_getD H2 H1 (by rw [l1, l2])
    intro b
    rw [g1 b, g2 b, sampledCount_saturated Pixels S1 C b h1,
      sampledCount_saturated Pixels S2 C b h2]
  have h31 : H3 = H1 := Except.ok.inj (e3.symm.trans e1)
  rw [hEq] at e2
  refine ⟨H1, e1, e2, l1, ?_⟩
  rw [← h31, g3, Finset.sum_congr rfl
    (fun i hi => saturated_terms Pixels.length C S1 hC h1 i (Finset.mem_range.1 hi))]
  exact sum_indicator_lt _ _

/-! ## Overflow of the loop variable at large strides -/

theorem pipeline_of_build_error (sort : PairSort) (fuel : Nat) (Pixels : List FColor)
    (D : Int) (C : Nat) (e : Fault) (h : buildHistogram fuel Pixels D C = .error e) :
    pipeline sort fuel Pixels D C = .error e := by
  unfold pipeline
  rw [h]

set_option maxRecDepth 100000 in
theorem buildHistogram_fourPixels_overflow :
    buildHistogram 4 fourPixels 2147483647 2 = .error .indexOutOfRange := by
  decide

set_option maxRecDepth 100000 in
theorem buildHistogram_redImage_overflow :
    buildHistogram 16 redImage 2147483647 3 = .error .indexOutOfRange := by
  decide

/-- Claim C1, the code at a failing input: the 4 × 4 all-red image (every pixel in bin
448), 3 tasks, stride 2147483647. Task 1 starts at index 5; adding the stride wraps `p` to
-2147483644 and the next read of `Pixels` is out of range: no histogram and no colour are
produced. At stride 1 the same image gives (224, 0, 0, 255). -/
theorem uniform_buffer_stride_overflow :
    (∀ c ∈ redImage, QuantizeColor c = 448) ∧
      advance redImage 5 2147483647 = -2147483644 ∧
      buildHistogram 16 redImage 2147483647 3 = .error .indexOutOfRange ∧
      pipeline insertionSort 16 redImage 2147483647 3 = .error .indexOutOfRange ∧
      pipeline insertionSort 16 redImage 1 3 = .ok ⟨224, 0, 0, 255⟩ := by
  refine ⟨by decide, by decide, buildHistogram_redImage_overflow,
    pipeline_of_build_error _ _ _ _ _ _ buildHistogram_redImage_overflow, ?_⟩
  obtain ⟨_, _, _, _, _, h, _⟩ := uniform_buffer_accent_in_range insertionSort 16 redImage 1 3
    448 insertionSort_sorts (by decide) (by decide) (by decide) (by decide) (by decide)
    (by decide)
  exact h

/-- Claim C4, the code at a failing input: four pixels, 2 tasks, stride 2147483647. The
claim gives bin 448 the count 2 (indices 0 and 2); the code produces no histogram: task 1
reads index 2, then `p` wraps and `Pixels` is read out of range. -/
theorem chunk_counts_stride_overflow :
    buildHistogram 4 fourPixels 2147483647 2 = .error .indexOutOfRange ∧
      ((Finset.range (min fourPixels.length (2 * max 1 (fourPixels.length / 2)))).filter
        (fun p => (p % max 1 (fourPixels.length / 2)) % 2147483647 = 0 ∧
          (fourPixels[p]?).map QuantizeColor = some 448)).card = 2 :=
  ⟨buildHistogram_fourPixels_overflow, by decide⟩

/-- Claim C5, the code at a failing input: four pixels, 2 chunks, stride 2147483647. The
claim gives the total `⌈2 / S⌉ + ⌈2 / S⌉ = 2`; the code produces no histogram. -/
theorem conservation_stride_overflow :
    buildHistogram 4 fourPixels 2147483647 2 = .error .indexOutOfRange ∧
      (∑ i in Finset.range 2,
        (min fourPixels.length ((i + 1) * max 1 (fourPixels.length / 2)) -
          i * max 1 (fourPixels.length / 2) + 2147483647 - 1) / 2147483647) = 2 :=
  ⟨buildHistogram_fourPixels_overflow, by decide⟩

/-- Claim C18, the code at a failing input: four pixels, 2 tasks, stride 2147483647. The
pipeline ends in an out-of-range read and returns no colour at all. -/
theorem accent_stride_overflow :
    pipeline insertionSort 4 fourPixels 2147483647 2 = .error .indexOutOfRange ∧
      ∀ color : FColor, pipeline insertionSort 4 fourPixels 2147483647 2 ≠ .ok color := by
  have h := pipeline_of_build_error insertionSort 4 fourPixels 2147483647 2 _
    buildHistogram_fourPixels_overflow
  refine ⟨h, fun color hc => ?_⟩
  rw [h] at hc
  cases hc

set_option maxRecDepth 100000 in
/-- Claim C19, the code at a failing input: four pixels, 2 tasks, stride 2147483647. Task 1
reads index 2; `p += DownsampleFactor` then gives -2147483647, which is below the loop
bound 4, and `Pixels[-2147483647]` is an access out of bounds. -/
theorem bounds_stride_overflow :
    advance fourPixels 2 2147483647 = -2147483647 ∧
      arrayAt fourPixels (-2147483647) = .error .indexOutOfRange ∧
      localHistogram fourPixels 2147483647 2 4 1 = .error .indexOutOfRange ∧
      buildHistogram 4 fourPixels 2147483647 2 = .error .indexOutOfRange :=
  ⟨by decide, by decide, by decide, buildHistogram_fourPixels_overflow⟩

set_option maxRecDepth 100000 in
/-- Claim C20, the code at a failing input: four pixels, 2 tasks, chunk size 2. The strides
2 and 2147483647 are both at least the chunk size; stride 2 gives a histogram of total 2,
stride 2147483647 gives no histogram. -/
theorem saturation_stride_overflow :
    max 1 (fourPixels.length / 2) ≤ 2 ∧ max 1 (fourPixels.length / 2) ≤ 2147483647 ∧
      (buildHistogram 4 fourPixels 2 2).map List.sum = .ok 2 ∧
      buildHistogram 4 fourPixels 2147483647 2 = .error .indexOutOfRange :=
  ⟨by decide, by decide, by decide, buildHistogram_fourPixels_overflow⟩

end AccentColor
